import Mathlib

/-!
Verification of the cell-tree / task-generator core (space.c of the
GadgetSMP-era engine) against its natural-language specification.

Each section is a shallow embedding of one group of source functions,
translated directly from the C source; machine arithmetic is modelled with
Nat/Int, C doubles/floats with ℚ, fallible code with Except/Option.
Recursions whose termination the C source does not guarantee take an
explicit fuel argument; exhausted fuel is reported as an error or falls
back to the non-recursive branch (noted at each definition).
-/

namespace GadgetSMP

/-! ### parts_sort (space.c lines 335-417)

`parts_sort(parts, ind, N, min, max)` sorts the bin indices `ind` with a
hybrid quicksort / insertion sort and is documented to apply the same
permutation to `parts`.  The embedding is generic in the particle payload
type `α`.  Arrays are lists; an element read `a[k]` becomes `List.getD k`
and a write becomes `List.set`. -/

inductive CError where
  | sortFailLow
  | sortFailHigh
  | outOfFuel
  | oobRead
  | oobBin
deriving Repr, DecidableEq

/-- Inner shifting loop of the insertion sort: starting from position `j`,
move entries one slot to the right while `ind[j-1] > temp_i`, returning the
final insertion position (structural recursion on `j`, which the loop
decrements). -/
def shiftLoop [Inhabited α] (tempI : Int) :
    List Int → List α → Nat → List Int × List α × Nat
  | ind, ps, 0 => (ind, ps, 0)
  | ind, ps, j + 1 =>
    if tempI < ind.getD j 0 then
      shiftLoop tempI ((ind.set (j + 1) (ind.getD j 0))) ((ps.set (j + 1) (ps.getD j default))) j
    else (ind, ps, j + 1)

/-- Outer loop of the insertion sort (the `N < 16` branch of `parts_sort`).
The C variable `j` persists between iterations of the outer `for`; the
saved particle is `parts[j]` with that stale `j`, exactly as in the source
(`temp_p = parts[j];` before the inner loop resets `j = i`).  `rem`
counts the iterations left (`N - i`), making the recursion structural. -/
def insLoop [Inhabited α] (N : Nat) :
    Nat → Nat → List Int → List α → Nat → List Int × List α
  | 0, _, ind, ps, _ => (ind, ps)
  | rem + 1, i, ind, ps, j =>
    if i < N then
      if ind.getD i 0 < ind.getD (i - 1) 0 then
        let tempI := ind.getD i 0
        let tempP := ps.getD j default
        let r := shiftLoop tempI ind ps i
        insLoop N rem (i + 1) ((r.1).set r.2.2 tempI) ((r.2.1).set r.2.2 tempP) r.2.2
      else insLoop N rem (i + 1) ind ps j
    else (ind, ps)

/-- First inner scan of the quicksort pass:
`while (i < N && ind[i] <= pivot) i++` (fuel `rem` bounds `N - i`). -/
def scanUp (N : Nat) (pivot : Int) (ind : List Int) : Nat → Nat → Nat
  | 0, i => i
  | rem + 1, i =>
    if i < N ∧ ind.getD i 0 ≤ pivot then scanUp N pivot ind rem (i + 1) else i

/-- Second inner scan of the quicksort pass:
`while (j >= 0 && ind[j] > pivot) j--` (fuel `rem` bounds `j + 1`). -/
def scanDown (pivot : Int) (ind : List Int) : Nat → Int → Int
  | 0, j => j
  | rem + 1, j =>
    if 0 ≤ j ∧ pivot < ind.getD j.toNat 0 then scanDown pivot ind rem (j - 1) else j

/-- Swap two list entries (the three-assignment swap of the source). -/
def lswap [Inhabited β] (l : List β) (a b : Nat) : List β :=
  (l.set a (l.getD b default)).set b (l.getD a default)

/-- One quicksort partition pass (`while (i < j) { ... }`).  The C loop
terminates because `i` advances after every swap; the fuel argument is set
to `N + 1` by the caller, which bounds the number of iterations. -/
def partLoop [Inhabited α] (N : Nat) (pivot : Int) :
    Nat → List Int → List α → Nat → Int → List Int × List α × Nat × Int
  | 0, ind, ps, i, j => (ind, ps, i, j)
  | fuel + 1, ind, ps, i, j =>
    if (i : Int) < j then
      let i' := scanUp N pivot ind N i
      let j' := scanDown pivot ind (j + 1).toNat j
      if (i' : Int) < j' then
        partLoop N pivot fuel (lswap ind i' j'.toNat) (lswap ps i' j'.toNat) i' j'
      else (ind, ps, i', j')
    else (ind, ps, i, j)

/-- `parts_sort` (space.c line 335).  Returns the permuted particle list and
the sorted index list, or the diagnostic with which the source `error`s out
of the post-partition verification.  The two recursive calls operate on the
prefix `[0, j]` and the suffix `[i, N)` of the same arrays; the embedding
runs them sequentially (single-worker semantics of the `omp sections`). -/
def parts_sort [Inhabited α] :
    Nat → List α → List Int → Int → Int → Except CError (List α × List Int)
  | 0, _, _, _, _ => .error .outOfFuel
  | fuel + 1, ps, ind, mn, mx =>
    let N := ind.length
    if N < 16 then
      let r := insLoop N N 1 ind ps (N - 1)
      .ok (r.2, r.1)
    else
      let pivot := (mn + mx).tdiv 2
      let r := partLoop N pivot (N + 1) ind ps 0 ((N : Int) - 1)
      let ind1 := r.1
      let ps1 := r.2.1
      let i := r.2.2.1
      let j := r.2.2.2
      if ¬ ((List.range (j + 1).toNat).all fun k => ind1.getD k 0 ≤ pivot) then
        .error .sortFailLow
      else if ¬ (((List.range N).drop (j + 1).toNat).all fun k => pivot < ind1.getD k 0) then
        .error .sortFailHigh
      else do
        let step1 ←
          if 0 < j ∧ mn < pivot then do
            let l ← parts_sort fuel (ps1.take (j + 1).toNat) (ind1.take (j + 1).toNat) mn pivot
            pure (l.1 ++ ps1.drop (j + 1).toNat, l.2 ++ ind1.drop (j + 1).toNat)
          else pure (ps1, ind1)
        let step2 ←
          if i < N ∧ pivot + 1 < mx then do
            let rr ← parts_sort fuel (step1.1.drop i) (step1.2.drop i) (pivot + 1) mx
            pure (step1.1.take i ++ rr.1, step1.2.take i ++ rr.2)
          else pure step1
        pure step2

/-! ### Sort-task granularity (maketasks_sort_rec, space.c lines 1021-1046)

For one cell with `count` particles, the flags of the sort tasks created
(in creation order) and the `c->sorts[0..13]` slot assignment (as an index
into that list; `none` for a slot the branch leaves untouched). -/

/-- Sort tasks generated for one cell by `maketasks_sort_rec`: the guard is
`c->count > 0` and `do_sort`; the three branches mirror the source's
`count < 1000` / `count < 5000` / else cases, including the per-slot
assignments `c->sorts[k] = t`. -/
def mkSortTasks (doSort : Bool) (count : Nat) : List Nat × List (Option Nat) :=
  if 0 < count ∧ doSort then
    if count < 1000 then
      ([0x1fff], (List.range 14).map fun k => if k < 13 then some 0 else none)
    else if count < 5000 then
      ([0x7f, 0x1f80], (List.range 14).map fun k => if k < 7 then some 0 else some 1)
    else
      ([0x1 + 0x2, 0x4 + 0x8, 0x10 + 0x20, 0x40 + 0x80, 0x100 + 0x200,
        0x400 + 0x800, 0x1000],
       (List.range 14).map fun k => some (k / 2))
  else ([], List.replicate 14 none)

/-- Number of the 13 sort directions (flag bits 0..12) a sort task's flag
word covers. -/
def nbits13 (f : Nat) : Nat := (List.range 13).countP fun i => f.testBit i

/-! ### space_addtask and the task arena (space.c lines 552-585, 1072-1084) -/

/-- The task record fields copied by `space_addtask` (the unlock arrays are
kept as counts, which is all the overflow claim needs). -/
structure ATask where
  ttype : Nat
  subtype : Nat
  flags : Nat
  wait : Nat
  ci : Option Nat
  cj : Option Nat
deriving Repr, DecidableEq

/-- The slice of `struct space` that `space_addtask` and the arena
allocation in `space_maketasks` touch.  `writes` logs each task store as
(arena index, task). -/
structure ASpace where
  tasksNull : Bool
  tasksSize : Nat
  nrTasks : Nat
  totCells : Nat
  writes : List (Nat × ATask)
deriving Repr, DecidableEq

/-- `space_addtask` (space.c line 552): stores the task at index
`s->nr_tasks` and increments the counter.  The source contains no bounds
check whatsoever, so the embedding is total: the only way it could abort is
an explicit `error(...)` in the source, and there is none.  The returned
`Nat` is the arena index written. -/
def space_addtask (s : ASpace) (t : ATask) : Except CError (ASpace × Nat) :=
  .ok ({ s with writes := s.writes ++ [(s.nrTasks, t)], nrTasks := s.nrTasks + 1 },
       s.nrTasks)

/-- The task-list (re)allocation at the top of `space_maketasks` (space.c
lines 1072-1084): if the arena is absent or smaller than `tot_cells * 43`,
it is resized to exactly `tot_cells * 43`; `nr_tasks` is reset to 0. -/
def maketasks_alloc (s : ASpace) : ASpace :=
  if s.tasksNull ∨ s.tasksSize < s.totCells * 43 then
    { s with tasksNull := false, tasksSize := s.totCells * 43, nrTasks := 0 }
  else { s with nrTasks := 0 }

/-! ### Ghost tasks and force twins
(space_map_mkghosts, space.c lines 442-463, applied top-down over all cells
by space_map_cells; and the density-to-force loop, space.c lines 1188-1220)

Cells live in an arena indexed by `Nat`; the hypothesis that a cell's
parent has a smaller index encodes the top-down processing order of
`space_map_cells` (parents are visited before their children). -/

/-- Task types (task.h is not part of the sources; only the distinctions
used by space.c matter). -/
inductive TType where
  | tnone
  | tsort
  | self
  | pair
  | sub
  | ghost
deriving Repr, DecidableEq

/-- Task subtypes. -/
inductive SType where
  | snone
  | density
  | force
deriving Repr, DecidableEq

/-- A task as seen by the ghost/twin wiring: `ci`, `cj` are cell arena
indices. -/
structure GTask where
  ttype : TType
  subtype : SType
  flags : Nat
  ci : Option Nat
  cj : Option Nat
deriving Repr, DecidableEq

/-- The cell fields read by `space_map_mkghosts`. -/
structure GCell where
  parent : Option Nat
  nrTasks : Nat
deriving Repr, DecidableEq

instance : Inhabited GCell := ⟨⟨none, 0⟩⟩

instance : Inhabited GTask := ⟨⟨.tnone, .snone, 0, none, none⟩⟩

/-- The mutable state threaded through ghost creation and twin creation:
`tasks` is the task arena (ghosts and twins are appended), `edges` logs
every `task_addunlock(a, b)` as the pair of task indices `(a, b)`, and
`ghost`/`super` are the per-cell fields `c->ghost` / `c->super`. -/
structure GState where
  cells : List GCell
  tasks : List GTask
  edges : List (Nat × Nat)
  ghost : List (Option Nat)
  super : List Nat
deriving Repr, DecidableEq

/-- The chain of ancestors of cell `i` (nearest first), read off the parent
pointers; `fuel` bounds the chain length and is passed as the arena size. -/
def ancChain (cells : List GCell) : Nat → Nat → List Nat
  | 0, _ => []
  | fuel + 1, i =>
    match (cells.getD i default).parent with
    | none => []
    | some p => p :: ancChain cells fuel p

/-- The super of cell `i`: the loop
`for (finger = c->parent; ...) if (finger->nr_tasks > 0) c->super = finger`
keeps overwriting, so the result is the highest ancestor with tasks, or `i`
itself if there is none. -/
def superOf (cells : List GCell) (i : Nat) : Nat :=
  (ancChain cells cells.length i).foldl
    (fun acc f => if 0 < (cells.getD f default).nrTasks then f else acc) i

/-- One application of `space_map_mkghosts` to cell `i`: compute and store
the super, create the ghost task when `c->super != c || c->nr_tasks > 0`,
and when `c->super != c` make the ghost depend on the parent's ghost.  (If
the parent's ghost were still unset the C code would dereference NULL; the
embedding records no edge in that case.) -/
def mkghostsStep (s : GState) (i : Nat) : GState :=
  let sup := superOf s.cells i
  let mkGhost := sup ≠ i ∨ 0 < (s.cells.getD i default).nrTasks
  let tasks' := if mkGhost then s.tasks ++ [⟨.ghost, .snone, 0, some i, none⟩] else s.tasks
  let ghost' := if mkGhost then s.ghost.set i (some s.tasks.length) else s.ghost
  let edges' :=
    if sup ≠ i then
      match (s.cells.getD i default).parent with
      | some p =>
        match ghost'.getD p none, ghost'.getD i none with
        | some gp, some gc => s.edges ++ [(gp, gc)]
        | _, _ => s.edges
      | none => s.edges
    else s.edges
  { cells := s.cells, tasks := tasks', edges := edges', ghost := ghost',
    super := s.super.set i sup }

/-- Run `mkghostsStep` over a list of cell indices in order. -/
def mkghostsRun : GState → List Nat → GState
  | s, [] => s
  | s, i :: rest => mkghostsRun (mkghostsStep s i) rest

/-- `space_map_cells(s, 1, space_map_mkghosts, s)`: apply the mapping
function to every cell, parents before children (encoded as index order). -/
def space_map_mkghosts (s : GState) : GState :=
  mkghostsRun s (List.range s.cells.length)

/-- The force twin `space_maketasks` creates for a density task, if any:
self and pair twins get flags 0, a sub twin inherits the flags; non-density
tasks (and in particular all twins, which are force tasks) have none. -/
def twinOf (t : GTask) : Option GTask :=
  if t.subtype = .density then
    match t.ttype, t.ci, t.cj with
    | .self, some ci, _ => some ⟨.self, .force, 0, some ci, none⟩
    | .pair, some ci, some cj => some ⟨.pair, .force, 0, some ci, some cj⟩
    | .sub, some ci, cjOpt => some ⟨.sub, .force, t.flags, some ci, cjOpt⟩
    | _, _, _ => none
  else none

/-- Zero-or-one edge from task `a` to an optional task. -/
def edgeTo (a : Nat) : Option Nat → List (Nat × Nat)
  | none => []
  | some b => [(a, b)]

/-- Zero-or-one edge from an optional task to task `b`. -/
def edgeFrom : Option Nat → Nat → List (Nat × Nat)
  | none, _ => []
  | some a, b => [(a, b)]

/-- Forward edges of the twin loop for the density task at index `k`:
`task_addunlock(t, t->ci->super->ghost)` and, for pair/sub with a `cj`,
the same through `cj`.  `gs c` is `ghost(super(c))`. -/
def fwdEdges (gs : Nat → Option Nat) (k : Nat) (t : GTask) : List (Nat × Nat) :=
  match t.ttype, t.ci, t.cj with
  | .self, some ci, _ => edgeTo k (gs ci)
  | .pair, some ci, some cj => edgeTo k (gs ci) ++ edgeTo k (gs cj)
  | .sub, some ci, cjOpt =>
    edgeTo k (gs ci) ++ (match cjOpt with | some cj => edgeTo k (gs cj) | none => [])
  | _, _, _ => []

/-- Backward edges of the twin loop into the twin at index `idx`:
`task_addunlock(t->ci->ghost, t2)` — note: the cell's own ghost, not its
super's.  `g c` is `ghost(c)`. -/
def bwdEdges (g : Nat → Option Nat) (idx : Nat) (t : GTask) : List (Nat × Nat) :=
  match t.ttype, t.ci, t.cj with
  | .self, some ci, _ => edgeFrom (g ci) idx
  | .pair, some ci, some cj => edgeFrom (g ci) idx ++ edgeFrom (g cj) idx
  | .sub, some ci, cjOpt =>
    edgeFrom (g ci) idx ++ (match cjOpt with | some cj => edgeFrom (g cj) idx | none => [])
  | _, _, _ => []

/-- `ghost(c)` as read from a state. -/
def ghostFn (s : GState) (c : Nat) : Option Nat := s.ghost.getD c none

/-- `ghost(super(c))` as read from a state (the `super` field having been
set by `space_map_mkghosts`). -/
def ghostSupFn (s : GState) (c : Nat) : Option Nat :=
  s.ghost.getD (s.super.getD c c) none

/-- One iteration of the density-to-force loop (space.c lines 1188-1220)
at task index `k`: add the forward edges into the super ghosts, append the
force twin, and add the edges from the cells' own ghosts into the twin. -/
def iactStep (s : GState) (k : Nat) : GState :=
  let t := s.tasks.getD k default
  match twinOf t with
  | none => s
  | some t2 =>
    { s with
        tasks := s.tasks ++ [t2],
        edges := s.edges ++ fwdEdges (ghostSupFn s) k t
                   ++ bwdEdges (ghostFn s) s.tasks.length t }

/-- The loop `for (k = 0; k < s->nr_tasks; k++)` of the twin pass: the
bound is re-read every iteration, so appended twins are themselves visited
(and skipped, being force tasks).  `fuel` bounds the number of iterations;
the caller passes `2 * nr_tasks + 1`, which always suffices since each
original task appends at most one twin. -/
def iactLoop : Nat → Nat → GState → GState
  | 0, _, s => s
  | fuel + 1, k, s =>
    if k < s.tasks.length then iactLoop fuel (k + 1) (iactStep s k) else s

/-- The density-to-force pass of `space_maketasks`. -/
def mkiacts (s : GState) : GState := iactLoop (2 * s.tasks.length + 1) 0 s

/-- Declarative edge list of the twin pass: walking the task list from
index `k`, with the next twin to be appended at index `base`. -/
def iactSpec (g gs : Nat → Option Nat) : List GTask → Nat → Nat → List (Nat × Nat)
  | [], _, _ => []
  | t :: rest, k, base =>
    match twinOf t with
    | none => iactSpec g gs rest (k + 1) base
    | some _ => fwdEdges gs k t ++ bwdEdges g base t ++ iactSpec g gs rest (k + 1) (base + 1)

/-- The force twins of a task list, in order. -/
def twinsOf (ts : List GTask) : List GTask := ts.filterMap twinOf


/-! ### Pair refinement in space_splittasks (space.c lines 667-724)

The pair branch of `space_splittasks`: compute the wrapped displacement and
stencil id, flip the cells so the folded id is in `0..12`, and either
convert the task in place to a `sub` task (depending on all 14 sort slots
of every non-NULL child of both cells) or fall through to the hard-coded
per-sid case split.  Cell geometry is ℚ-valued. -/

/-- A child cell as seen by the sub conversion: its 14 `sorts[]` slots
(task indices). -/
structure SChild where
  sorts : Fin 14 → Nat

/-- The cell fields the pair branch reads. -/
structure SCell where
  split : Bool
  count : Nat
  loc : ℚ × ℚ × ℚ
  h : ℚ × ℚ × ℚ
  hmax : ℚ
  progeny : List (Option SChild)

/-- `fmax(h[0], fmax(h[1], h[2]))`: the largest side of a cell. -/
def hiOf (c : SCell) : ℚ := max c.h.1 (max c.h.2.1 c.h.2.2)

/-- Periodic wrapping of one axis of the relative displacement (space.c
lines 681-688). -/
def shiftOf (dim li lj : ℚ) : ℚ :=
  if lj - li < -dim / 2 then dim
  else if lj - li > dim / 2 then -dim
  else 0

/-- One factor of the sorting index: 0, 2 or 1 for a negative, positive or
zero displacement component. -/
def sidAxis (d : ℚ) : Nat := if d < 0 then 0 else if d > 0 then 2 else 1

/-- The raw sorting index `sid ∈ 0..26` of a cell pair (space.c lines
690-692), including the periodic shift. -/
def sidRaw (dim ciloc cjloc : ℚ × ℚ × ℚ) : Nat :=
  let d1 := cjloc.1 - ciloc.1 + shiftOf dim.1 ciloc.1 cjloc.1
  let d2 := cjloc.2.1 - ciloc.2.1 + shiftOf dim.2.1 ciloc.2.1 cjloc.2.1
  let d3 := cjloc.2.2 - ciloc.2.2 + shiftOf dim.2.2 ciloc.2.2 cjloc.2.2
  3 * (3 * sidAxis d1 + sidAxis d2) + sidAxis d3

/-- The flip of space.c lines 695-701: if `sid < 13` swap the cells and
keep `sid`, otherwise keep the cells and fold `sid` to `26 - sid`. -/
def flipPair (ci cj : SCell) (sid0 : Nat) : SCell × SCell × Nat :=
  if sid0 < 13 then (cj, ci, sid0) else (ci, cj, 26 - sid0)

/-- The dependencies of a converted sub task (space.c lines 712-719): for
`j = 0..7`, all 14 sort slots of `ci->progeny[j]` then of `cj->progeny[j]`,
whenever the child is non-NULL. -/
def subDeps (ci cj : SCell) : List Nat :=
  (List.range 8).flatMap fun j =>
    (match ci.progeny.getD j none with
     | none => []
     | some ch => (List.finRange 14).map ch.sorts)
    ++ (match cj.progeny.getD j none with
        | none => []
        | some ch => (List.finRange 14).map ch.sorts)

/-- Outcome of the pair branch for one task. -/
inductive PairOutcome where
  /-- The pair is not refinable: the task is left as a pair over the two
  cells, no conversion, no new tasks. -/
  | leave
  /-- The task is converted in place to `sub` with the given flags and
  (possibly flipped) cells, depending on the listed sort tasks; the loop
  `continue`s without recursing on it. -/
  | toSub (flags : Nat) (ci cj : SCell) (deps : List Nat)
  /-- The task falls through to the hard-coded per-`sid` case split
  (space.c lines 737-986) that replaces it by child-to-child pairs; those
  cases are beyond what the claims about this branch need. -/
  | refine (sid : Nat) (ci cj : SCell)

/-- The pair branch of `space_splittasks` (space.c lines 667-724) for one
pair task over `ci`, `cj`: refinability test, stencil id and flip, then the
sub-conversion test `ci->count < subsize && cj->count < subsize && sid not
in {0, 2, 6, 8}`. -/
def splittasks_pair (stretch : ℚ) (subsize : Nat) (dim : ℚ × ℚ × ℚ)
    (ci cj : SCell) : PairOutcome :=
  if ci.split ∧ cj.split
      ∧ ci.hmax * stretch < hiOf ci / 2 ∧ cj.hmax * stretch < hiOf cj / 2 then
    let f := flipPair ci cj (sidRaw dim ci.loc cj.loc)
    if f.1.count < subsize ∧ f.2.1.count < subsize
        ∧ f.2.2 ≠ 0 ∧ f.2.2 ≠ 2 ∧ f.2.2 ≠ 6 ∧ f.2.2 ≠ 8 then
      .toSub f.2.2 f.1 f.2.1 (subDeps f.1 f.2.1)
    else
      .refine f.2.2 f.1 f.2.1
  else .leave

/-! ### Cell tree: space_split and space_rebuild_recurse
(space.c lines 85-199 and 1247-1321)

Cells own their particle slice as a list of (part, cpart) pairs — the two
C arrays move together (see `cellSplitParts`).  The split recursion of the
source need not terminate (all particles coincident with small `h` split
forever), so both tree builders take fuel; at zero fuel a cell is left
unsplit with its progeny nulled, i.e. the result of the non-split branch,
and any terminating execution of the source is reproduced exactly by a
sufficiently large fuel. -/

/-- The fields of `struct part` that space.c reads. -/
structure Part where
  x : ℚ × ℚ × ℚ
  h : ℚ
  dt : ℚ
deriving DecidableEq, Repr

instance : Inhabited Part := ⟨⟨(0, 0, 0), 0, 0⟩⟩

/-- The condensed particle `struct cpart`: the packed shadow of
`{x, h, dt}`. -/
structure CPart where
  x : ℚ × ℚ × ℚ
  h : ℚ
  dt : ℚ
deriving DecidableEq, Repr

/-- The copy `cparts[k] = {parts[k].x, parts[k].h, parts[k].dt}`
(space.c lines 289-295). -/
def condense (p : Part) : CPart := ⟨p.x, p.h, p.dt⟩

/-- A particle paired with its condensed mirror, as the two parallel
arrays move together through `cell_split`. -/
abbrev PPair := Part × CPart

/-- A tree cell: location, side lengths, depth, split flag, `h_max`, the
owned particle slice, and eight optional progeny. -/
inductive Cell : Type where
  | node : (ℚ × ℚ × ℚ) → (ℚ × ℚ × ℚ) → Nat → Bool → ℚ → List PPair →
      List (Option Cell) → Cell

/-- Lower corner `c->loc`. -/
def Cell.loc : Cell → ℚ × ℚ × ℚ
  | .node l _ _ _ _ _ _ => l

/-- Side lengths `c->h`. -/
def Cell.h : Cell → ℚ × ℚ × ℚ
  | .node _ hh _ _ _ _ _ => hh

/-- Depth `c->depth`. -/
def Cell.depth : Cell → Nat
  | .node _ _ d _ _ _ _ => d

/-- Split flag `c->split`. -/
def Cell.split : Cell → Bool
  | .node _ _ _ s _ _ _ => s

/-- Largest particle `h` seen, `c->h_max`. -/
def Cell.hmax : Cell → ℚ
  | .node _ _ _ _ m _ _ => m

/-- The particle slice `c->parts` / `c->cparts`. -/
def Cell.parts : Cell → List PPair
  | .node _ _ _ _ _ ps _ => ps

/-- The progeny pointers `c->progeny[0..7]`. -/
def Cell.progeny : Cell → List (Option Cell)
  | .node _ _ _ _ _ _ pr => pr

/-- `c->count`, kept equal to the slice length. -/
def Cell.count (c : Cell) : Nat := c.parts.length

/-- `h_limit = fmin(c->h[0], fmin(c->h[1], c->h[2])) / 2` (space.c lines
118, 1258). -/
def hLimit (c : Cell) : ℚ := min c.h.1 (min c.h.2.1 c.h.2.2) / 2

/-- The number of particles with `cparts[k].h <= h_limit` (space.c lines
121-124, 1261-1264). -/
def countBelow (ps : List PPair) (hl : ℚ) : Nat :=
  (ps.filter fun p => p.2.h ≤ hl).length

/-- The running maximum of `cparts[k].h`, seeded with 0 (space.c lines
121-127, 1261-1267). -/
def hmaxOf (ps : List PPair) : ℚ :=
  ps.foldl (fun acc p => if p.2.h > acc then p.2.h else acc) 0

/-- The child octant of a particle position within a cell: bit 4/2/1 set
when the coordinate is in the upper half along x/y/z, matching the progeny
geometry of space.c lines 152-160. -/
def octant (loc hh : ℚ × ℚ × ℚ) (p : Part) : Nat :=
  (if loc.1 + hh.1 / 2 ≤ p.x.1 then 4 else 0)
  + (if loc.2.1 + hh.2.1 / 2 ≤ p.x.2.1 then 2 else 0)
  + (if loc.2.2 + hh.2.2 / 2 ≤ p.x.2.2 then 1 else 0)

/-- Modelled from the spec: `cell_split` (cell.c, not among the sources)
"partitions the parent's particle range in place so each child's particles
are contiguous" (§4.1), moving `parts` and `cparts` together (§3.1
guarantees `cparts[i]` mirrors `parts[i]` after rebuild).  Child `k`
receives, in order, the parent pairs whose position lies in octant `k`. -/
def cellSplitParts (loc hh : ℚ × ℚ × ℚ) (ps : List PPair) (k : Nat) : List PPair :=
  ps.filter fun p => octant loc hh p.1 = k

/-- The parent's slice after `cell_split`: the concatenation of the eight
child slices, in child order. -/
def octantConcat (loc hh : ℚ × ℚ × ℚ) (ps : List PPair) : List PPair :=
  (List.range 8).flatMap (cellSplitParts loc hh ps)

/-- Location of progeny `k` (space.c lines 149-160, 1280-1291): the parent
corner shifted by half a side along each axis whose bit is set in `k`. -/
def childLoc (c : Cell) (k : Nat) : ℚ × ℚ × ℚ :=
  ((if k.testBit 2 then c.loc.1 + c.h.1 / 2 else c.loc.1),
   (if k.testBit 1 then c.loc.2.1 + c.h.2.1 / 2 else c.loc.2.1),
   (if k.testBit 0 then c.loc.2.2 + c.h.2.2 / 2 else c.loc.2.2))

/-- Half side lengths of the progeny. -/
def halfH (c : Cell) : ℚ × ℚ × ℚ := (c.h.1 / 2, c.h.2.1 / 2, c.h.2.2 / 2)

/-- `space_split` (space.c line 1247): count the particles below the
cutoff and record `h_max`; split iff
`count > c->count * space_splitratio && c->count > space_splitsize`; on a
split, create the eight progeny with their slices (`space_getcell` plus
`cell_split`), recurse on all of them, then recycle the empty ones.  At
zero fuel the else-branch (progeny nulled, `split = 0`) is taken. -/
def spaceSplit (ss : Nat) (r : ℚ) : Nat → Cell → Cell
  | 0, c =>
    Cell.node c.loc c.h c.depth false (hmaxOf c.parts) c.parts (List.replicate 8 none)
  | fuel + 1, c =>
    let cnt := countBelow c.parts (hLimit c)
    let hm := hmaxOf c.parts
    if (cnt : ℚ) > (c.count : ℚ) * r ∧ c.count > ss then
      let kids := (List.range 8).map fun k =>
        spaceSplit ss r fuel
          (Cell.node (childLoc c k) (halfH c) (c.depth + 1) false 0
            (cellSplitParts c.loc c.h c.parts k) [])
      let kids2 := kids.map fun kc => if kc.count = 0 then none else some kc
      Cell.node c.loc c.h c.depth true hm (octantConcat c.loc c.h c.parts) kids2
    else
      Cell.node c.loc c.h c.depth false hm c.parts (List.replicate 8 none)

/-- `space_rebuild_recurse` (space.c line 104).  For an already split cell:
re-count; if `count < c->count * splitratio || c->count < splitsize`,
dismantle the subtree (`space_rebuild_recycle`) and clear the split flag;
otherwise populate the missing progeny, re-run `cell_split`, recycle empty
progeny and recurse on the rest.  An unsplit cell goes to `space_split`.
At zero fuel the cell is dismantled (the non-split normal form). -/
def spaceRebuildRecurse (ss : Nat) (r : ℚ) : Nat → Cell → Cell
  | 0, c =>
    Cell.node c.loc c.h c.depth false (hmaxOf c.parts) c.parts (List.replicate 8 none)
  | fuel + 1, c =>
    if c.split then
      let cnt := countBelow c.parts (hLimit c)
      let hm := hmaxOf c.parts
      if (cnt : ℚ) < (c.count : ℚ) * r ∨ c.count < ss then
        Cell.node c.loc c.h c.depth false hm c.parts (List.replicate 8 none)
      else
        let kids := (List.range 8).map fun k =>
          let slice := cellSplitParts c.loc c.h c.parts k
          match c.progeny.getD k none with
          | some old =>
            Cell.node old.loc old.h old.depth old.split old.hmax slice old.progeny
          | none =>
            Cell.node (childLoc c k) (halfH c) (c.depth + 1) false 0 slice []
        let kids2 := kids.map fun kc =>
          if kc.count = 0 then none else some (spaceRebuildRecurse ss r fuel kc)
        Cell.node c.loc c.h c.depth true hm (octantConcat c.loc c.h c.parts) kids2
    else spaceSplit ss r (fuel + 1) c

mutual
/-- The tree-shape invariant, checked recursively: an unsplit cell has all
progeny NULL, a split cell has at least one progeny, and every non-NULL
progeny has a positive count. -/
def treeInvB : Cell → Bool
  | .node _ _ _ split _ _ prog =>
    (if split then prog.any Option.isSome else prog.all Option.isNone) && progInv prog
/-- The progeny part of `treeInvB`. -/
def progInv : List (Option Cell) → Bool
  | [] => true
  | none :: rest => progInv rest
  | some c :: rest => decide (0 < c.count) && treeInvB c && progInv rest
end

mutual
/-- The particle content of a subtree in memory order: a split cell's range
is the concatenation of its children's ranges, a leaf owns its slice. -/
def flattenParts : Cell → List PPair
  | .node _ _ _ split _ parts prog => if split then flattenProg prog else parts
/-- The progeny part of `flattenParts`. -/
def flattenProg : List (Option Cell) → List PPair
  | [] => []
  | none :: rest => flattenProg rest
  | some c :: rest => flattenParts c ++ flattenProg rest
end

/-! ### space_rebuild, fresh-build path (space.c lines 210-320, 1416-1435)

The particle pipeline of `space_rebuild` as invoked from `space_init`
(`force = 1`): seed `h_max` from `parts[0]`, size the top-level grid, bin
every particle, sort, copy the condensed particles, hook the top-level
cells to their slices and recurse.  Out-of-bounds array accesses of the
source are explicit error outcomes here. -/

/-- Modelled from the spec: `cell_getid` (cell.c, not among the sources)
computes `bin = ((x/h)_x * cdim_y + (x/h)_y) * cdim_z + (x/h)_z` (§4.1). -/
def cell_getid (cdim : Int × Int × Int) (i j k : Int) : Int :=
  (i * cdim.2.1 + j) * cdim.2.2 + k

/-- Cut a pair list into consecutive slices of the given lengths (the
`c->parts = finger` hookup of space.c lines 297-304). -/
def splitByCounts (ps : List PPair) : List Nat → List (List PPair)
  | [] => []
  | n :: rest => ps.take n :: splitByCounts (ps.drop n) rest

/-- The tail of `space_rebuild` after the grid geometry is fixed: range
check every bin index (the write `s->cells[ind[k]].count += 1` of line 282
faults on an out-of-range bin), sort, copy the condensed particles, hook
the top-level cells to their slices and recurse. -/
def rebuildSorted (ss : Nat) (r : ℚ) (fuel : Nat) (cd : Int × Int × Int)
    (hh : ℚ × ℚ × ℚ) (ncells : Int) (ind : List Int) (parts : List Part) :
    Except CError (List Part × List CPart) :=
  if ¬ (ind.all fun b => 0 ≤ b ∧ b < ncells) then .error .oobBin
  else do
    let sorted ← parts_sort (parts.length + ncells.toNat + 2) parts ind 0 ncells
    let cparts := sorted.1.map condense
    let pairs := sorted.1.zip cparts
    let counts := (List.range ncells.toNat).map fun cid => ind.count (cid : Int)
    let slices := splitByCounts pairs counts
    let cells := (List.range ncells.toNat).map fun cid =>
      let i := cid / (cd.2.1.toNat * cd.2.2.toNat)
      let j := (cid / cd.2.2.toNat) % cd.2.1.toNat
      let k := cid % cd.2.2.toNat
      Cell.node ((i : ℚ) * hh.1, (j : ℚ) * hh.2.1, (k : ℚ) * hh.2.2) hh 0 false 0
        (slices.getD cid []) []
    let cells2 := cells.map (spaceRebuildRecurse ss r fuel)
    let finalPairs := cells2.flatMap flattenParts
    pure (finalPairs.map Prod.fst, finalPairs.map Prod.snd)

/-- The particle phase of `space_rebuild` with `force = 1` (the call made
by `space_init`).  Returns the final `parts` and `cparts` arrays, or the
error outcome at which the source would fault or abort: reading
`s->parts[0].h` with no particles (line 212), an out-of-range bin, or a
`parts_sort` failure.  `h_min` is computed as in the source but unused by
this phase. -/
def spaceRebuild (stretch cellMax : ℚ) (dim : ℚ × ℚ × ℚ) (ss : Nat) (r : ℚ)
    (fuel : Nat) (parts : List Part) : Except CError (List Part × List CPart) :=
  match parts.head? with
  | none => .error .oobRead
  | some p0 =>
    let hmax := parts.foldl (fun acc p => if p.h > acc then p.h else acc) p0.h
    let _hmin := parts.foldl (fun acc p => if p.h < acc then p.h else acc) p0.h
    let cd : Int × Int × Int :=
      (⌊dim.1 / max (hmax * stretch) cellMax⌋,
       ⌊dim.2.1 / max (hmax * stretch) cellMax⌋,
       ⌊dim.2.2 / max (hmax * stretch) cellMax⌋)
    let hh : ℚ × ℚ × ℚ := (dim.1 / (cd.1 : ℚ), dim.2.1 / (cd.2.1 : ℚ),
      dim.2.2 / (cd.2.2 : ℚ))
    let ih : ℚ × ℚ × ℚ := (1 / hh.1, 1 / hh.2.1, 1 / hh.2.2)
    let ncells : Int := cd.1 * cd.2.1 * cd.2.2
    let ind : List Int := parts.map fun p =>
      cell_getid cd ⌊p.x.1 * ih.1⌋ ⌊p.x.2.1 * ih.2.1⌋ ⌊p.x.2.2 * ih.2.2⌋
    rebuildSorted ss r fuel cd hh ncells ind parts
end GadgetSMP

/-- C2: refuted on the code.  At `N = 3`, `parts = [10, 20, 30]`,
`ind = [2, 1, 3]` (insertion-sort path), `parts_sort` sorts the bin indices
to `[1, 2, 3]` but turns the particle array into `[30, 10, 30]`: particle
`20` is lost and `30` duplicated, because the insertion sort saves
`parts[j]` with a stale `j` instead of `parts[i]`.  The multiset of
particles is not preserved, contradicting both the claim and the function's
own documentation. -/
theorem C2_parts_sort_corrupts_particles :
    GadgetSMP.parts_sort 1 [10, 20, 30] ([2, 1, 3] : List Int) 0 3
      = .ok ([30, 10, 30], [1, 2, 3])
    ∧ ¬ ([30, 10, 30] : List Nat).Perm [10, 20, 30] := by
  constructor
  · rfl
  · decide

/-- C5 counterexample: for a cell with `count = 1000` the two sort tasks
created carry flags `0x7f` and `0x1f80`, which cover 7 and 6 of the 13
directions — not 7 and 7 as claimed (bit 13 of a flags word is never a
direction). -/
theorem C5_mid_range_is_7_and_6 :
    (GadgetSMP.mkSortTasks true 1000).1.map GadgetSMP.nbits13 = [7, 6]
    ∧ (GadgetSMP.mkSortTasks true 1000).1.map GadgetSMP.nbits13 ≠ [7, 7] := by
  decide

/-- C5 amended: for a live cell the sort tasks are exactly: one task with
flags `0x1FFF` (13 directions) when `count < 1000`; two tasks with flags
`0x7F` and `0x1F80` (7 and 6 directions) when `1000 ≤ count < 5000`; and
seven tasks with the flag unions `0x1|0x2, …, 0x1000` (two directions each,
direction 12 alone) when `count ≥ 5000`. -/
theorem C5_sort_task_granularity (c : Nat) (h0 : 0 < c) :
    (c < 1000 →
      (GadgetSMP.mkSortTasks true c).1 = [0x1fff]
      ∧ (GadgetSMP.mkSortTasks true c).1.map GadgetSMP.nbits13 = [13])
    ∧ (1000 ≤ c → c < 5000 →
      (GadgetSMP.mkSortTasks true c).1 = [0x7f, 0x1f80]
      ∧ (GadgetSMP.mkSortTasks true c).1.map GadgetSMP.nbits13 = [7, 6])
    ∧ (5000 ≤ c →
      (GadgetSMP.mkSortTasks true c).1
        = [0x1 + 0x2, 0x4 + 0x8, 0x10 + 0x20, 0x40 + 0x80, 0x100 + 0x200,
           0x400 + 0x800, 0x1000]
      ∧ (GadgetSMP.mkSortTasks true c).1.map GadgetSMP.nbits13
        = [2, 2, 2, 2, 2, 2, 1]) := by
  unfold GadgetSMP.mkSortTasks
  refine ⟨fun h1 => ?_, fun h1 h2 => ?_, fun h1 => ?_⟩
  · rw [if_pos ⟨h0, rfl⟩, if_pos h1]
    exact ⟨rfl, by decide⟩
  · rw [if_pos ⟨h0, rfl⟩, if_neg (by omega), if_pos h2]
    exact ⟨rfl, by decide⟩
  · rw [if_pos ⟨h0, rfl⟩, if_neg (by omega), if_neg (by omega)]
    exact ⟨rfl, by decide⟩

/-- C5 witness: instantiation of the granularity theorem at `count = 1000`. -/
theorem C5_sort_task_granularity_witness :
    (GadgetSMP.mkSortTasks true 1000).1 = [0x7f, 0x1f80]
    ∧ (GadgetSMP.mkSortTasks true 1000).1.map GadgetSMP.nbits13 = [7, 6] :=
  (C5_sort_task_granularity 1000 (by decide)).2.1 (by decide) (by decide)

/-- C7 counterexample: with a zero-sized arena (`tasks_size = 0`, so any
append overflows), `space_addtask` succeeds and logs a write at arena index
0, i.e. outside the arena — it does not abort with a diagnostic. -/
theorem C7_addtask_overflow_writes_out_of_bounds :
    ∃ s2, GadgetSMP.space_addtask
        { tasksNull := false, tasksSize := 0, nrTasks := 0, totCells := 0,
          writes := [] }
        { ttype := 0, subtype := 0, flags := 0, wait := 0, ci := none, cj := none }
      = .ok (s2, 0)
    ∧ ¬ (0 < (0 : Nat)) := by
  exact ⟨_, rfl, by decide⟩

/-- C7 amended: `space_addtask` contains no overflow check: for every space
state it returns successfully, logs the task at index `nr_tasks` (outside
the arena whenever `nr_tasks ≥ tasks_size`) and increments `nr_tasks`.  The
arena itself is sized at allocation time so that `tasks_size ≥
tot_cells * 43`; that bound is an unchecked precondition of graph build,
not an enforced one. -/
theorem C7_addtask_never_aborts (s : GadgetSMP.ASpace) (t : GadgetSMP.ATask) :
    GadgetSMP.space_addtask s t
      = .ok
          ({ s with
              writes := s.writes ++ [(s.nrTasks, t)],
              nrTasks := s.nrTasks + 1 },
           s.nrTasks)
    ∧ s.totCells * 43 ≤ (GadgetSMP.maketasks_alloc s).tasksSize := by
  refine ⟨rfl, ?_⟩
  unfold GadgetSMP.maketasks_alloc
  split
  · simp
  · rename_i h
    push_neg at h
    simpa using h.2

namespace GadgetSMP

/-- Reading a freshly written slot of an arena column. -/
theorem getD_set_self (l : List (Option Nat)) (i : Nat) (v : Option Nat)
    (h : i < l.length) : (l.set i v).getD i none = v := by
  simp [List.getD, List.getElem?_set, h]

/-- Reading an untouched slot of an arena column. -/
theorem getD_set_ne (l : List (Option Nat)) (i j : Nat) (v : Option Nat)
    (h : i ≠ j) : (l.set i v).getD j none = l.getD j none := by
  simp [List.getD, List.getElem?_set, h]

/-- Every ancestor of `i` has a smaller arena index when parents do. -/
theorem ancChain_lt (cells : List GCell)
    (hpar : ∀ j p, (cells.getD j default).parent = some p → p < j) :
    ∀ fuel i a, a ∈ ancChain cells fuel i → a < i := by
  intro fuel
  induction fuel with
  | zero => intro i a ha; simp [ancChain] at ha
  | succ fuel ih =>
    intro i a ha
    unfold ancChain at ha
    cases hp : (cells.getD i default).parent with
    | none => rw [hp] at ha; simp at ha
    | some p =>
      rw [hp] at ha
      rcases List.mem_cons.mp ha with h | h
      · exact h ▸ hpar i p hp
      · exact lt_trans (ih p a h) (hpar i p hp)

/-- The ancestor chain does not depend on the fuel once the fuel exceeds
the index (ancestors strictly decrease). -/
theorem ancChain_stable (cells : List GCell)
    (hpar : ∀ j p, (cells.getD j default).parent = some p → p < j) :
    ∀ i f g, i < f → i < g → ancChain cells f i = ancChain cells g i := by
  intro i
  induction i using Nat.strong_induction_on with
  | _ i ih =>
    intro f g hf hg
    obtain ⟨f', rfl⟩ : ∃ f', f = f' + 1 := ⟨f - 1, by omega⟩
    obtain ⟨g', rfl⟩ : ∃ g', g = g' + 1 := ⟨g - 1, by omega⟩
    unfold ancChain
    cases hp : (cells.getD i default).parent with
    | none => rfl
    | some p =>
      have hpi := hpar i p hp
      show p :: ancChain cells f' p = p :: ancChain cells g' p
      rw [ih p hpi f' g' (by omega) (by omega)]

/-- If no ancestor of the fold list has tasks, the super fold returns its
seed. -/
theorem superFold_of_none (cells : List GCell) (l : List Nat) (init : Nat)
    (h : ∀ x ∈ l, ¬ 0 < (cells.getD x default).nrTasks) :
    l.foldl (fun acc f => if 0 < (cells.getD f default).nrTasks then f else acc) init
      = init := by
  induction l generalizing init with
  | nil => rfl
  | cons x rest ih =>
    simp only [List.foldl_cons]
    rw [if_neg (h x (List.mem_cons_self x rest))]
    exact ih init fun y hy => h y (List.mem_cons_of_mem x hy)

/-- If some element of the fold list has tasks, the fold result is an
element of the list and has tasks. -/
theorem superFold_of_some (cells : List GCell) (l : List Nat) (init : Nat)
    (h : ∃ x ∈ l, 0 < (cells.getD x default).nrTasks) :
    (l.foldl (fun acc f => if 0 < (cells.getD f default).nrTasks then f else acc) init) ∈ l
    ∧ 0 < (cells.getD
        (l.foldl (fun acc f => if 0 < (cells.getD f default).nrTasks then f else acc) init)
        default).nrTasks := by
  induction l generalizing init with
  | nil => simp at h
  | cons x rest ih =>
    simp only [List.foldl_cons]
    by_cases hrest : ∃ y ∈ rest, 0 < (cells.getD y default).nrTasks
    · have := ih (if 0 < (cells.getD x default).nrTasks then x else init) hrest
      exact ⟨List.mem_cons_of_mem x this.1, this.2⟩
    · push_neg at hrest
      rcases h with ⟨y, hy, hyt⟩
      rcases List.mem_cons.mp hy with rfl | hy'
      · rw [if_pos hyt, superFold_of_none cells rest y (by simpa using hrest)]
        exact ⟨List.mem_cons_self y rest, hyt⟩
      · exact absurd hyt (by simpa using hrest y hy')

/-- A cell differs from its super exactly when some ancestor hosts tasks. -/
theorem superOf_ne_iff (cells : List GCell)
    (hpar : ∀ j p, (cells.getD j default).parent = some p → p < j) (i : Nat) :
    superOf cells i ≠ i
      ↔ ∃ a ∈ ancChain cells cells.length i, 0 < (cells.getD a default).nrTasks := by
  constructor
  · intro hne
    by_contra hno
    push_neg at hno
    exact hne (superFold_of_none cells _ i fun x hx => by have := hno x hx; omega)
  · intro hex
    have h := superFold_of_some cells (ancChain cells cells.length i) i hex
    have := ancChain_lt cells hpar cells.length i _ h.1
    unfold superOf
    omega

/-- If a cell differs from its super, it has a parent and that parent also
satisfies the ghost condition (differs from its own super or hosts tasks). -/
theorem superOf_parent (cells : List GCell)
    (hpar : ∀ j p, (cells.getD j default).parent = some p → p < j) (i : Nat)
    (hne : superOf cells i ≠ i) :
    ∃ p, (cells.getD i default).parent = some p ∧ p < i
      ∧ (superOf cells p ≠ p ∨ 0 < (cells.getD p default).nrTasks) := by
  rcases (superOf_ne_iff cells hpar i).mp hne with ⟨a, ha, hat⟩
  obtain ⟨n', hn'⟩ : ∃ n', cells.length = n' + 1 := by
    cases hlen : cells.length with
    | zero => rw [hlen] at ha; simp [ancChain] at ha
    | succ m => exact ⟨m, rfl⟩
  rw [hn'] at ha
  unfold ancChain at ha
  cases hp : (cells.getD i default).parent with
  | none => rw [hp] at ha; simp at ha
  | some p =>
    rw [hp] at ha
    have hpi := hpar i p hp
    refine ⟨p, rfl, hpi, ?_⟩
    rcases List.mem_cons.mp ha with rfl | ha'
    · exact Or.inr hat
    · left
      apply (superOf_ne_iff cells hpar p).mpr
      have hin : i < cells.length := by
        by_contra hge
        push_neg at hge
        have hdef : (cells.getD i default) = default :=
          List.getD_eq_default _ _ hge
        rw [hdef] at hp
        simp [default] at hp
      refine ⟨a, ?_, hat⟩
      rwa [ancChain_stable cells hpar p cells.length n' (by omega) (by omega)]

end GadgetSMP

namespace GadgetSMP

/-- `mkghostsStep` leaves the cell arena unchanged. -/
theorem mkghostsStep_cells (s : GState) (i : Nat) :
    (mkghostsStep s i).cells = s.cells := rfl

/-- `mkghostsStep` preserves the length of the ghost column. -/
theorem mkghostsStep_ghost_length (s : GState) (i : Nat) :
    (mkghostsStep s i).ghost.length = s.ghost.length := by
  simp only [mkghostsStep]
  split <;> simp

/-- `mkghostsStep` at cell `i` does not touch the ghost of another cell. -/
theorem mkghostsStep_ghost_ne (s : GState) (i j : Nat) (hij : i ≠ j) :
    (mkghostsStep s i).ghost.getD j none = s.ghost.getD j none := by
  simp only [mkghostsStep]
  split
  · exact getD_set_ne _ _ _ _ hij
  · rfl

/-- The ghost of cell `i` after its own step: created exactly under the
source's condition `c->super != c || c->nr_tasks > 0`, pointing at the next
free task slot. -/
theorem mkghostsStep_ghost_self (s : GState) (i : Nat) (hlen : i < s.ghost.length) :
    (mkghostsStep s i).ghost.getD i none
      = if superOf s.cells i ≠ i ∨ 0 < (s.cells.getD i default).nrTasks
        then some s.tasks.length else s.ghost.getD i none := by
  by_cases hc : superOf s.cells i ≠ i ∨ 0 < (s.cells.getD i default).nrTasks
  · simp only [mkghostsStep, if_pos hc]
    exact getD_set_self _ _ _ hlen
  · simp only [mkghostsStep, if_neg hc]

/-- `mkghostsStep` only appends to the edge log. -/
theorem mkghostsStep_edges_mono (s : GState) (i : Nat) (e : Nat × Nat)
    (he : e ∈ s.edges) : e ∈ (mkghostsStep s i).edges := by
  simp only [mkghostsStep]
  repeat' split
  all_goals first | exact List.mem_append_left _ he | exact he

/-- When cell `i` is not its own super and its parent already has a ghost,
the step records the parent-ghost-to-own-ghost dependency. -/
theorem mkghostsStep_edge_added (s : GState) (i p gp : Nat)
    (hne : superOf s.cells i ≠ i)
    (hp : (s.cells.getD i default).parent = some p)
    (hip : p ≠ i)
    (hgp : s.ghost.getD p none = some gp)
    (hlen : i < s.ghost.length) :
    (mkghostsStep s i).ghost.getD p none = some gp
    ∧ (mkghostsStep s i).ghost.getD i none = some s.tasks.length
    ∧ (gp, s.tasks.length) ∈ (mkghostsStep s i).edges := by
  have hc : superOf s.cells i ≠ i ∨ 0 < (s.cells.getD i default).nrTasks := Or.inl hne
  refine ⟨?_, ?_, ?_⟩
  · rw [mkghostsStep_ghost_ne s i p (Ne.symm hip)]
    exact hgp
  · rw [mkghostsStep_ghost_self s i hlen, if_pos hc]
  · simp only [mkghostsStep, if_pos hc, if_pos hne, hp]
    rw [getD_set_ne _ _ _ _ (Ne.symm hip), hgp, getD_set_self _ _ _ hlen]
    simp

end GadgetSMP

namespace GadgetSMP

/-- Invariant of the `space_map_mkghosts` sweep, processing cells
`m, m+1, ..., m+k-1` from a state whose ghosts at indices `≥ m` are still
unset: afterwards a cell below `m+k` has a ghost exactly under the source
condition, and every such cell that differs from its super has the
parent-ghost dependency in the edge log. -/
theorem mkghostsRun_inv (cells : List GCell)
    (hpar : ∀ j p, (cells.getD j default).parent = some p → p < j) :
    ∀ (k m : Nat) (s : GState),
      s.cells = cells →
      s.ghost.length = cells.length →
      (∀ j, m ≤ j → s.ghost.getD j none = none) →
      (∀ j, j < m →
        ((s.ghost.getD j none).isSome
          ↔ (superOf cells j ≠ j ∨ 0 < (cells.getD j default).nrTasks))) →
      (∀ j, j < m → superOf cells j ≠ j →
        ∃ p gp gj, (cells.getD j default).parent = some p
          ∧ s.ghost.getD p none = some gp
          ∧ s.ghost.getD j none = some gj
          ∧ (gp, gj) ∈ s.edges) →
      m + k ≤ cells.length →
      (mkghostsRun s (List.range' m k)).cells = cells
      ∧ (∀ j, j < m + k →
          (((mkghostsRun s (List.range' m k)).ghost.getD j none).isSome
            ↔ (superOf cells j ≠ j ∨ 0 < (cells.getD j default).nrTasks)))
      ∧ (∀ j, j < m + k → superOf cells j ≠ j →
          ∃ p gp gj, (cells.getD j default).parent = some p
            ∧ (mkghostsRun s (List.range' m k)).ghost.getD p none = some gp
            ∧ (mkghostsRun s (List.range' m k)).ghost.getD j none = some gj
            ∧ (gp, gj) ∈ (mkghostsRun s (List.range' m k)).edges) := by
  intro k
  induction k with
  | zero =>
    intro m s hc hlen hnone hiff hedge hmk
    refine ⟨hc, ?_, ?_⟩
    · intro j hj
      exact hiff j (by omega)
    · intro j hj
      exact hedge j (by omega)
  | succ k ih =>
    intro m s hc hlen hnone hiff hedge hmk
    have hrange : List.range' m (k + 1) = m :: List.range' (m + 1) k := by
      rw [List.range'_succ]
    rw [hrange]
    have hml : m < s.ghost.length := by omega
    have step_cells : (mkghostsStep s m).cells = cells := by
      rw [mkghostsStep_cells, hc]
    have step_len : (mkghostsStep s m).ghost.length = cells.length := by
      rw [mkghostsStep_ghost_length, hlen]
    have step_none : ∀ j, m + 1 ≤ j → (mkghostsStep s m).ghost.getD j none = none := by
      intro j hj
      rw [mkghostsStep_ghost_ne s m j (by omega)]
      exact hnone j (by omega)
    have step_iff : ∀ j, j < m + 1 →
        (((mkghostsStep s m).ghost.getD j none).isSome
          ↔ (superOf cells j ≠ j ∨ 0 < (cells.getD j default).nrTasks)) := by
      intro j hj
      rcases Nat.lt_succ_iff_lt_or_eq.mp hj with hjm | rfl
      · rw [mkghostsStep_ghost_ne s m j (by omega)]
        exact hiff j hjm
      · rw [mkghostsStep_ghost_self s j hml, hc]
        by_cases hcond : superOf cells j ≠ j ∨ 0 < (cells.getD j default).nrTasks
        · rw [if_pos hcond]
          exact iff_of_true rfl hcond
        · rw [if_neg hcond, hnone j (by omega)]
          simpa using hcond
    have step_edge : ∀ j, j < m + 1 → superOf cells j ≠ j →
        ∃ p gp gj, (cells.getD j default).parent = some p
          ∧ (mkghostsStep s m).ghost.getD p none = some gp
          ∧ (mkghostsStep s m).ghost.getD j none = some gj
          ∧ (gp, gj) ∈ (mkghostsStep s m).edges := by
      intro j hj hne
      rcases Nat.lt_succ_iff_lt_or_eq.mp hj with hjm | rfl
      · obtain ⟨p, gp, gj, hp, hgp, hgj, hmem⟩ := hedge j hjm hne
        have hpj : p < j := hpar j p hp
        refine ⟨p, gp, gj, hp, ?_, ?_, ?_⟩
        · rw [mkghostsStep_ghost_ne s m p (by omega)]
          exact hgp
        · rw [mkghostsStep_ghost_ne s m j (by omega)]
          exact hgj
        · exact mkghostsStep_edges_mono s m _ hmem
      · obtain ⟨p, hp, hpj, hcondp⟩ := superOf_parent cells hpar j hne
        have hgp : ∃ gp, s.ghost.getD p none = some gp := by
          have := (hiff p (by omega)).mpr hcondp
          cases hgpv : s.ghost.getD p none with
          | none => rw [hgpv] at this; simp at this
          | some gp => exact ⟨gp, rfl⟩
        obtain ⟨gp, hgp⟩ := hgp
        have hne' : superOf s.cells j ≠ j := by rwa [hc]
        have hp' : (s.cells.getD j default).parent = some p := by rwa [hc]
        obtain ⟨h1, h2, h3⟩ :=
          mkghostsStep_edge_added s j p gp hne' hp' (by omega) hgp hml
        exact ⟨p, gp, s.tasks.length, hp, h1, h2, h3⟩
    have key := ih (m + 1) (mkghostsStep s m) step_cells step_len step_none step_iff
      step_edge (by omega)
    exact ⟨key.1, fun j hj => key.2.1 j (by omega), fun j hj hne => key.2.2 j (by omega) hne⟩

/-- Reading any slot of an all-`none` column gives `none`. -/
theorem getD_replicate_none (n j : Nat) :
    (List.replicate n (none : Option Nat)).getD j none = none := by
  by_cases hj : j < n
  · simp [List.getD, List.getElem?_replicate, hj]
  · simp [List.getD, List.getElem?_replicate, hj]

/-- Executable form of the parents-decrease side condition, for concrete
witnesses. -/
def parentsDecreasing (cells : List GCell) : Bool :=
  (List.range cells.length).all fun j =>
    match (cells.getD j default).parent with
    | none => true
    | some p => decide (p < j)

/-- The executable side condition implies the unbounded one (cells outside
the arena have no parent). -/
theorem hpar_of_parentsDecreasing (cells : List GCell)
    (h : parentsDecreasing cells = true) :
    ∀ j p, (cells.getD j default).parent = some p → p < j := by
  intro j p hp
  by_cases hj : j < cells.length
  · have := List.all_eq_true.mp h j (List.mem_range.mpr hj)
    rw [hp] at this
    exact of_decide_eq_true this
  · rw [List.getD_eq_default _ _ (by omega)] at hp
    simp [default] at hp

end GadgetSMP

/-- C4: corrected.  After `space_map_mkghosts` runs over all cells (parents
before children, fresh ghost column), a cell carries a ghost task if and
only if it is NOT its own super or has `nr_tasks > 0` — the source condition
is `c->super != c || c->nr_tasks > 0`, the negation of the claim's "is its
own super" — and every cell that differs from its super has its parent's
ghost as a predecessor of its own ghost. -/
theorem C4_ghost_condition (s : GadgetSMP.GState)
    (hg : s.ghost = List.replicate s.cells.length none)
    (hpar : ∀ j p, (s.cells.getD j default).parent = some p → p < j) :
    (∀ i, i < s.cells.length →
      (((GadgetSMP.space_map_mkghosts s).ghost.getD i none).isSome
        ↔ (GadgetSMP.superOf s.cells i ≠ i
            ∨ 0 < (s.cells.getD i default).nrTasks)))
    ∧ (∀ i, i < s.cells.length → GadgetSMP.superOf s.cells i ≠ i →
        ∃ p gp gi, (s.cells.getD i default).parent = some p
          ∧ (GadgetSMP.space_map_mkghosts s).ghost.getD p none = some gp
          ∧ (GadgetSMP.space_map_mkghosts s).ghost.getD i none = some gi
          ∧ (gp, gi) ∈ (GadgetSMP.space_map_mkghosts s).edges) := by
  have h := GadgetSMP.mkghostsRun_inv s.cells hpar s.cells.length 0 s rfl
      (by rw [hg]; simp)
      (fun j _ => by rw [hg]; exact GadgetSMP.getD_replicate_none _ _)
      (fun j hj => absurd hj (by omega))
      (fun j hj => absurd hj (by omega))
      (by omega)
  unfold GadgetSMP.space_map_mkghosts
  rw [List.range_eq_range']
  exact ⟨fun i hi => h.2.1 i (by omega), fun i hi => h.2.2 i (by omega)⟩

/-- C4 witness: the ghost characterization applied to a two-cell arena (a
root with one task and its child with one task). -/
theorem C4_ghost_condition_witness :
    (∀ i, i < (⟨[⟨none, 1⟩, ⟨some 0, 1⟩], [], [], [none, none], [0, 0]⟩ :
        GadgetSMP.GState).cells.length →
      (((GadgetSMP.space_map_mkghosts
          ⟨[⟨none, 1⟩, ⟨some 0, 1⟩], [], [], [none, none], [0, 0]⟩).ghost.getD i none).isSome
        ↔ (GadgetSMP.superOf [⟨none, 1⟩, ⟨some 0, 1⟩] i ≠ i
            ∨ 0 < (([⟨none, 1⟩, ⟨some 0, 1⟩] : List GadgetSMP.GCell).getD i
                default).nrTasks)))
    ∧ (∀ i, i < (⟨[⟨none, 1⟩, ⟨some 0, 1⟩], [], [], [none, none], [0, 0]⟩ :
        GadgetSMP.GState).cells.length →
        GadgetSMP.superOf [⟨none, 1⟩, ⟨some 0, 1⟩] i ≠ i →
        ∃ p gp gi,
          (([⟨none, 1⟩, ⟨some 0, 1⟩] : List GadgetSMP.GCell).getD i default).parent
              = some p
          ∧ (GadgetSMP.space_map_mkghosts
              ⟨[⟨none, 1⟩, ⟨some 0, 1⟩], [], [], [none, none], [0, 0]⟩).ghost.getD p none
              = some gp
          ∧ (GadgetSMP.space_map_mkghosts
              ⟨[⟨none, 1⟩, ⟨some 0, 1⟩], [], [], [none, none], [0, 0]⟩).ghost.getD i none
              = some gi
          ∧ (gp, gi) ∈ (GadgetSMP.space_map_mkghosts
              ⟨[⟨none, 1⟩, ⟨some 0, 1⟩], [], [], [none, none], [0, 0]⟩).edges) :=
  C4_ghost_condition ⟨[⟨none, 1⟩, ⟨some 0, 1⟩], [], [], [none, none], [0, 0]⟩ rfl
    (GadgetSMP.hpar_of_parentsDecreasing _ (by decide))

/-- C4 counterexample: a single top-level cell with no tasks IS its own
super, so the claim's condition ("is its own super or has nr_tasks > 0")
would demand a ghost; the code's condition `c->super != c || c->nr_tasks
> 0` is false and no ghost is created. -/
theorem C4_own_super_without_ghost :
    GadgetSMP.superOf [⟨none, 0⟩] 0 = 0
    ∧ (GadgetSMP.space_map_mkghosts
        ⟨[⟨none, 0⟩], [], [], [none], [0]⟩).ghost.getD 0 none = none := by
  decide

namespace GadgetSMP

/-- A force twin has no twin of its own (it is a force task, and only
density tasks get twins), so the twin loop skips the tasks it appends. -/
theorem twinOf_twin_none (t t2 : GTask) (h : twinOf t = some t2) :
    twinOf t2 = none := by
  unfold twinOf at h
  split at h
  · split at h
    all_goals first
      | (injection h with h2; rw [← h2]; rfl)
      | simp at h
  · simp at h

/-- Reading inside bounds with `getD` is plain indexing. -/
theorem getD_eq_getElem [Inhabited α] (l : List α) (k : Nat) (h : k < l.length) :
    l.getD k default = l[k] := by
  simp [List.getD_eq_getElem?_getD, List.getElem?_eq_getElem h]

/-- The declarative edge list splits over list append; the second half
starts after the first half's tasks and twins. -/
theorem iactSpec_append (g gs : Nat → Option Nat) (l1 l2 : List GTask)
    (k base : Nat) :
    iactSpec g gs (l1 ++ l2) k base
      = iactSpec g gs l1 k base
        ++ iactSpec g gs l2 (k + l1.length) (base + (twinsOf l1).length) := by
  induction l1 generalizing k base with
  | nil => simp [iactSpec, twinsOf]
  | cons t rest ih =>
    rw [List.cons_append]
    show iactSpec g gs (t :: (rest ++ l2)) k base = _
    cases h : twinOf t with
    | none =>
      rw [iactSpec, h]
      rw [iactSpec, h]  -- reduce the RHS head as well
      rw [ih]
      have h1 : k + (rest.length + 1) = k + 1 + rest.length := by omega
      have h2 : (twinsOf (t :: rest)).length = (twinsOf rest).length := by
        simp [twinsOf, List.filterMap_cons, h]
      simp only [List.length_cons, h1, twinsOf, List.filterMap_cons, h]
    | some t2 =>
      rw [iactSpec, h]
      rw [iactSpec, h]
      rw [ih]
      have h2 : twinsOf (t :: rest) = t2 :: twinsOf rest := by
        simp [twinsOf, List.filterMap_cons, h]
      rw [h2]
      simp only [List.length_cons]
      have e1 : k + (rest.length + 1) = k + 1 + rest.length := by omega
      have e2 : base + ((twinsOf rest).length + 1)
          = base + 1 + (twinsOf rest).length := by omega
      rw [e1, e2]
      simp only [List.append_assoc]
      rw [ih (k + 1) (base + 1)]

end GadgetSMP

namespace GadgetSMP

/-- Characterization of the twin loop from index `k` on: it appends
exactly the twins of the tasks not yet visited (the tasks it appends are
force tasks and are skipped when the loop reaches them) and logs exactly
the declarative edge list.  `fuel` must cover the remaining iterations. -/
theorem iactLoop_spec (fuel : Nat) :
    ∀ (k : Nat) (s : GState),
      s.tasks.length + (twinsOf (s.tasks.drop k)).length ≤ fuel + k →
      iactLoop fuel k s
        = { s with
            tasks := s.tasks ++ twinsOf (s.tasks.drop k),
            edges := s.edges
              ++ iactSpec (ghostFn s) (ghostSupFn s) (s.tasks.drop k) k
                   s.tasks.length } := by
  induction fuel with
  | zero =>
    intro k s hf
    have hdrop : s.tasks.drop k = [] := List.drop_eq_nil_of_le (by omega)
    simp [iactLoop, hdrop, iactSpec, twinsOf]
  | succ fuel ih =>
    intro k s hf
    by_cases hk : k < s.tasks.length
    · have hdrop : s.tasks.drop k = s.tasks[k] :: s.tasks.drop (k + 1) :=
        List.drop_eq_getElem_cons hk
      have hgd : s.tasks.getD k default = s.tasks[k] := getD_eq_getElem _ _ hk
      rw [iactLoop, if_pos hk]
      cases hT : twinOf (s.tasks[k]) with
      | none =>
        have hstep : iactStep s k = s := by
          simp only [iactStep]
          rw [hgd, hT]
        have htw : twinsOf (s.tasks.drop k) = twinsOf (s.tasks.drop (k + 1)) := by
          rw [hdrop]
          simp only [twinsOf, List.filterMap_cons, hT]
        have hspec : iactSpec (ghostFn s) (ghostSupFn s) (s.tasks.drop k) k
              s.tasks.length
            = iactSpec (ghostFn s) (ghostSupFn s) (s.tasks.drop (k + 1)) (k + 1)
                s.tasks.length := by
          rw [hdrop]
          simp only [iactSpec, hT]
        have hlentw : (twinsOf (s.tasks.drop k)).length
            = (twinsOf (s.tasks.drop (k + 1))).length := by rw [htw]
        rw [hstep, ih (k + 1) s (by omega), htw, hspec]
      | some t2 =>
        have hstep : iactStep s k
            = { s with
                tasks := s.tasks ++ [t2],
                edges := s.edges
                  ++ fwdEdges (ghostSupFn s) k (s.tasks[k])
                  ++ bwdEdges (ghostFn s) s.tasks.length (s.tasks[k]) } := by
          simp only [iactStep]
          rw [hgd, hT]
        have htw2 : twinOf t2 = none := twinOf_twin_none _ _ hT
        have htw : twinsOf (s.tasks.drop k)
            = t2 :: twinsOf (s.tasks.drop (k + 1)) := by
          rw [hdrop]
          simp only [twinsOf, List.filterMap_cons, hT]
        have hlentw : (twinsOf (s.tasks.drop k)).length
            = (twinsOf (s.tasks.drop (k + 1))).length + 1 := by rw [htw]; rfl
        have hdrop1 : (s.tasks ++ [t2]).drop (k + 1)
            = s.tasks.drop (k + 1) ++ [t2] := by
          rw [List.drop_append_eq_append_drop]
          have h0 : k + 1 - s.tasks.length = 0 := by omega
          rw [h0]
          simp
        have htwApp : twinsOf (s.tasks.drop (k + 1) ++ [t2])
            = twinsOf (s.tasks.drop (k + 1)) := by
          simp [twinsOf, List.filterMap_append, htw2]
        have hlen1 : (s.tasks ++ [t2]).length = s.tasks.length + 1 := by simp
        have hfuel1 : (s.tasks ++ [t2]).length
              + (twinsOf ((s.tasks ++ [t2]).drop (k + 1))).length
            ≤ fuel + (k + 1) := by
          rw [hdrop1, htwApp, hlen1]
          omega
        have hspecL : iactSpec (ghostFn s) (ghostSupFn s) (s.tasks.drop k) k
              s.tasks.length
            = fwdEdges (ghostSupFn s) k (s.tasks[k])
              ++ bwdEdges (ghostFn s) s.tasks.length (s.tasks[k])
              ++ iactSpec (ghostFn s) (ghostSupFn s) (s.tasks.drop (k + 1))
                   (k + 1) (s.tasks.length + 1) := by
          rw [hdrop]
          simp only [iactSpec, hT]
        have hspecR : iactSpec (ghostFn s) (ghostSupFn s)
              (s.tasks.drop (k + 1) ++ [t2]) (k + 1) (s.tasks.length + 1)
            = iactSpec (ghostFn s) (ghostSupFn s) (s.tasks.drop (k + 1)) (k + 1)
                (s.tasks.length + 1) := by
          rw [iactSpec_append]
          have hnil : iactSpec (ghostFn s) (ghostSupFn s) [t2]
              (k + 1 + (s.tasks.drop (k + 1)).length)
              (s.tasks.length + 1 + (twinsOf (s.tasks.drop (k + 1))).length)
              = [] := by
            simp only [iactSpec, htw2]
          rw [hnil]
          simp
        have hgf : ghostFn { s with
              tasks := s.tasks ++ [t2],
              edges := s.edges
                ++ fwdEdges (ghostSupFn s) k (s.tasks[k])
                ++ bwdEdges (ghostFn s) s.tasks.length (s.tasks[k]) } = ghostFn s := rfl
        have hgsf : ghostSupFn { s with
              tasks := s.tasks ++ [t2],
              edges := s.edges
                ++ fwdEdges (ghostSupFn s) k (s.tasks[k])
                ++ bwdEdges (ghostFn s) s.tasks.length (s.tasks[k]) } = ghostSupFn s := rfl
        rw [hstep, ih (k + 1) _ hfuel1, htw, hspecL, hgf, hgsf]
        rw [show ({ s with
              tasks := s.tasks ++ [t2],
              edges := s.edges
                ++ fwdEdges (ghostSupFn s) k (s.tasks[k])
                ++ bwdEdges (ghostFn s) s.tasks.length (s.tasks[k]) } :
            GState).tasks = s.tasks ++ [t2] from rfl]
        rw [hdrop1, htwApp, hlen1, hspecR]
        congr 1 <;> simp [List.append_assoc]
    · have hdrop : s.tasks.drop k = [] := List.drop_eq_nil_of_le (by omega)
      rw [iactLoop, if_neg hk]
      simp [hdrop, iactSpec, twinsOf]

end GadgetSMP

/-- C1 amended: the density-to-force pass appends exactly one force twin
per density task (`twinsOf` is a `filterMap` of the per-task twin), and
wires, per density task `T` at index `k` with twin `T'` at index `base`:
`T → ghost(super(ci))` and (when `cj` exists) `T → ghost(super(cj))`
(`fwdEdges`), and `ghost(ci) → T'` and (when `cj` exists) `ghost(cj) → T'`
(`bwdEdges`) — the twin's predecessors are the cells' own ghosts, not the
ghosts of their supers, which reach `T'` only through the parent-ghost
chain. -/
theorem C1_force_twin_pass (s : GadgetSMP.GState) :
    GadgetSMP.mkiacts s
      = { s with
          tasks := s.tasks ++ GadgetSMP.twinsOf s.tasks,
          edges := s.edges
            ++ GadgetSMP.iactSpec (GadgetSMP.ghostFn s) (GadgetSMP.ghostSupFn s)
                 s.tasks 0 s.tasks.length } := by
  unfold GadgetSMP.mkiacts
  have hfuel : s.tasks.length + (GadgetSMP.twinsOf (s.tasks.drop 0)).length
      ≤ 2 * s.tasks.length + 1 + 0 := by
    have := List.length_filterMap_le GadgetSMP.twinOf s.tasks
    simp only [List.drop_zero, GadgetSMP.twinsOf]
    omega
  rw [GadgetSMP.iactLoop_spec (2 * s.tasks.length + 1) 0 s hfuel]
  simp

/-- C1 witness: the characterization applied to a one-task state (a single
density self task on cell 0, which has a ghost at task index 1). -/
theorem C1_force_twin_pass_witness :
    GadgetSMP.mkiacts
        ⟨[⟨none, 1⟩], [⟨.self, .density, 0, some 0, none⟩,
          ⟨.ghost, .snone, 0, some 0, none⟩], [], [some 1], [0]⟩
      = { (⟨[⟨none, 1⟩], [⟨.self, .density, 0, some 0, none⟩,
            ⟨.ghost, .snone, 0, some 0, none⟩], [], [some 1], [0]⟩ :
            GadgetSMP.GState) with
          tasks := [⟨.self, .density, 0, some 0, none⟩,
            ⟨.ghost, .snone, 0, some 0, none⟩]
            ++ GadgetSMP.twinsOf [⟨.self, .density, 0, some 0, none⟩,
                 ⟨.ghost, .snone, 0, some 0, none⟩],
          edges := []
            ++ GadgetSMP.iactSpec
                 (GadgetSMP.ghostFn ⟨[⟨none, 1⟩],
                   [⟨.self, .density, 0, some 0, none⟩,
                    ⟨.ghost, .snone, 0, some 0, none⟩], [], [some 1], [0]⟩)
                 (GadgetSMP.ghostSupFn ⟨[⟨none, 1⟩],
                   [⟨.self, .density, 0, some 0, none⟩,
                    ⟨.ghost, .snone, 0, some 0, none⟩], [], [some 1], [0]⟩)
                 [⟨.self, .density, 0, some 0, none⟩,
                  ⟨.ghost, .snone, 0, some 0, none⟩] 0 2 } :=
  C1_force_twin_pass ⟨[⟨none, 1⟩], [⟨.self, .density, 0, some 0, none⟩,
    ⟨.ghost, .snone, 0, some 0, none⟩], [], [some 1], [0]⟩

/-- C1 counterexample: three cells (two top-level cells 0 and 1, and cell 2
a child of cell 0, all with `nr_tasks = 1`), a pair density task on (0,1)
and a self density task on cell 2.  After `space_map_mkghosts` and the twin
pass: ghosts are tasks 2, 3, 4; the twin of the self task (task index 1) is
task 6; `super(2) = 0` and `ghost(super(2))` is task 2, yet the edge
`(2, 6)` claimed by "ghost(super(ci)) → T'" is absent — the wired
predecessor is `ghost(ci)`, task 4, via edge `(4, 6)`. -/
theorem C1_super_ghost_edge_absent :
    let r := GadgetSMP.mkiacts (GadgetSMP.space_map_mkghosts
      ⟨[⟨none, 1⟩, ⟨none, 1⟩, ⟨some 0, 1⟩],
       [⟨.pair, .density, 0, some 0, some 1⟩, ⟨.self, .density, 0, some 2, none⟩],
       [], [none, none, none], [0, 0, 0]⟩)
    r.tasks.getD 1 default = ⟨.self, .density, 0, some 2, none⟩
    ∧ r.tasks.getD 6 default = ⟨.self, .force, 0, some 2, none⟩
    ∧ r.super.getD 2 2 = 0
    ∧ r.ghost.getD 0 none = some 2
    ∧ r.ghost.getD 2 none = some 4
    ∧ (1, 2) ∈ r.edges
    ∧ (4, 6) ∈ r.edges
    ∧ (2, 6) ∉ r.edges := by
  decide

/-- C6: confirmed.  For a pair task over two refinable cells (both split,
each with `h_max * stretch < `half its largest side) whose counts are both
below `subSize` and whose folded stencil id is a face direction (not 0, 2,
6 or 8), `space_splittasks` converts the task in place to a sub task with
`flags = sid` over the same two cells (flipped if the raw id was below 13),
makes it depend on all 14 sort entries of every non-NULL child of both
cells, and does not recurse further on it. -/
theorem C6_pair_to_sub (stretch : ℚ) (subsize : Nat) (dim : ℚ × ℚ × ℚ)
    (ci cj : GadgetSMP.SCell)
    (hsplit : ci.split ∧ cj.split)
    (href : ci.hmax * stretch < GadgetSMP.hiOf ci / 2
            ∧ cj.hmax * stretch < GadgetSMP.hiOf cj / 2)
    (hci : ci.count < subsize) (hcj : cj.count < subsize)
    (hface : (GadgetSMP.flipPair ci cj (GadgetSMP.sidRaw dim ci.loc cj.loc)).2.2 ≠ 0
      ∧ (GadgetSMP.flipPair ci cj (GadgetSMP.sidRaw dim ci.loc cj.loc)).2.2 ≠ 2
      ∧ (GadgetSMP.flipPair ci cj (GadgetSMP.sidRaw dim ci.loc cj.loc)).2.2 ≠ 6
      ∧ (GadgetSMP.flipPair ci cj (GadgetSMP.sidRaw dim ci.loc cj.loc)).2.2 ≠ 8) :
    GadgetSMP.splittasks_pair stretch subsize dim ci cj
      = .toSub (GadgetSMP.flipPair ci cj (GadgetSMP.sidRaw dim ci.loc cj.loc)).2.2
          (GadgetSMP.flipPair ci cj (GadgetSMP.sidRaw dim ci.loc cj.loc)).1
          (GadgetSMP.flipPair ci cj (GadgetSMP.sidRaw dim ci.loc cj.loc)).2.1
          (GadgetSMP.subDeps
            (GadgetSMP.flipPair ci cj (GadgetSMP.sidRaw dim ci.loc cj.loc)).1
            (GadgetSMP.flipPair ci cj (GadgetSMP.sidRaw dim ci.loc cj.loc)).2.1)
    ∧ (((GadgetSMP.flipPair ci cj (GadgetSMP.sidRaw dim ci.loc cj.loc)).1 = ci
        ∧ (GadgetSMP.flipPair ci cj (GadgetSMP.sidRaw dim ci.loc cj.loc)).2.1 = cj)
      ∨ ((GadgetSMP.flipPair ci cj (GadgetSMP.sidRaw dim ci.loc cj.loc)).1 = cj
        ∧ (GadgetSMP.flipPair ci cj (GadgetSMP.sidRaw dim ci.loc cj.loc)).2.1 = ci)) := by
  have hcounts :
      (GadgetSMP.flipPair ci cj (GadgetSMP.sidRaw dim ci.loc cj.loc)).1.count < subsize
      ∧ (GadgetSMP.flipPair ci cj (GadgetSMP.sidRaw dim ci.loc cj.loc)).2.1.count
          < subsize := by
    unfold GadgetSMP.flipPair
    split
    · exact ⟨hcj, hci⟩
    · exact ⟨hci, hcj⟩
  constructor
  · simp only [GadgetSMP.splittasks_pair]
    rw [if_pos ⟨hsplit.1, hsplit.2, href.1, href.2⟩,
      if_pos ⟨hcounts.1, hcounts.2, hface.1, hface.2.1, hface.2.2.1, hface.2.2.2⟩]
  · unfold GadgetSMP.flipPair
    split
    · exact Or.inr ⟨rfl, rfl⟩
    · exact Or.inl ⟨rfl, rfl⟩

/-- C6 witness: two unit cells one apart along x in a 10-periodic box, raw
stencil id 22 folding to face direction 4, both counts below `subSize = 2`;
the pair becomes `sub(flags = 4)` depending on the 14 sort slots of the one
non-NULL child of each cell. -/
theorem C6_pair_to_sub_witness :
    let ci : GadgetSMP.SCell :=
      ⟨true, 1, (0, 0, 0), (1, 1, 1), 1/4,
       [some ⟨fun _ => 100⟩, none, none, none, none, none, none, none]⟩
    let cj : GadgetSMP.SCell :=
      ⟨true, 1, (1, 0, 0), (1, 1, 1), 1/4,
       [some ⟨fun k => 200 + (k : Nat)⟩, none, none, none, none, none, none, none]⟩
    let f := GadgetSMP.flipPair ci cj (GadgetSMP.sidRaw (10, 10, 10) ci.loc cj.loc)
    GadgetSMP.splittasks_pair 1 2 (10, 10, 10) ci cj
      = .toSub f.2.2 f.1 f.2.1 (GadgetSMP.subDeps f.1 f.2.1)
    ∧ ((f.1 = ci ∧ f.2.1 = cj) ∨ (f.1 = cj ∧ f.2.1 = ci)) :=
  C6_pair_to_sub 1 2 (10, 10, 10)
    ⟨true, 1, (0, 0, 0), (1, 1, 1), 1/4,
     [some ⟨fun _ => 100⟩, none, none, none, none, none, none, none]⟩
    ⟨true, 1, (1, 0, 0), (1, 1, 1), 1/4,
     [some ⟨fun k => 200 + (k : Nat)⟩, none, none, none, none, none, none, none]⟩
    (by decide) (by norm_num [GadgetSMP.hiOf])
    (by decide) (by decide)
    (by norm_num [GadgetSMP.flipPair, GadgetSMP.sidRaw, GadgetSMP.shiftOf,
      GadgetSMP.sidAxis])

namespace GadgetSMP

/-- The split flag `space_split` leaves on its cell: set exactly when
`count > c->count * splitratio && c->count > splitsize`. -/
theorem spaceSplit_split_eq (ss : Nat) (r : ℚ) (fuel : Nat) (c : Cell) :
    (spaceSplit ss r (fuel + 1) c).split
      = decide ((countBelow c.parts (hLimit c) : ℚ) > (c.count : ℚ) * r
          ∧ c.count > ss) := by
  simp only [spaceSplit]
  by_cases hc : ((countBelow c.parts (hLimit c) : ℚ) > (c.count : ℚ) * r
      ∧ c.count > ss)
  · rw [if_pos hc]
    simp [Cell.split, hc]
  · rw [if_neg hc]
    simp [Cell.split, hc]

/-- The split flag `space_rebuild_recurse` leaves on its cell: a split cell
stays split unless `count < c->count * splitratio || c->count < splitsize`;
an unsplit cell is split under the `space_split` criterion. -/
theorem spaceRebuildRecurse_split_eq (ss : Nat) (r : ℚ) (fuel : Nat) (c : Cell) :
    (spaceRebuildRecurse ss r (fuel + 1) c).split
      = (if c.split
         then decide (¬ ((countBelow c.parts (hLimit c) : ℚ) < (c.count : ℚ) * r
                ∨ c.count < ss))
         else decide ((countBelow c.parts (hLimit c) : ℚ) > (c.count : ℚ) * r
                ∧ c.count > ss)) := by
  simp only [spaceRebuildRecurse]
  cases hs : c.split with
  | true =>
    simp only [if_pos]
    by_cases hc : ((countBelow c.parts (hLimit c) : ℚ) < (c.count : ℚ) * r
        ∨ c.count < ss)
    · rw [if_pos hc]
      simp [Cell.split, hc]
    · rw [if_neg hc]
      simp [Cell.split, hc]
  | false =>
    simp only [Bool.false_eq_true, if_neg]
    exact spaceSplit_split_eq ss r fuel c

end GadgetSMP

/-- C3 amended: after the rebuild recursion visits a cell, a previously
unsplit cell is split iff `count > c.count * splitRatio AND c.count >
splitSize` (both strict, per `space_split`), while a previously split cell
is dismantled iff `count < c.count * splitRatio OR c.count < splitSize`
(and so remains split when either comparison is an exact tie, where the
claim's criterion would dismantle it). -/
theorem C3_split_criterion (ss : Nat) (r : ℚ) (fuel : Nat) (c : GadgetSMP.Cell) :
    (GadgetSMP.spaceSplit ss r (fuel + 1) c).split
      = decide ((GadgetSMP.countBelow c.parts (GadgetSMP.hLimit c) : ℚ)
          > (c.count : ℚ) * r ∧ c.count > ss)
    ∧ (GadgetSMP.spaceRebuildRecurse ss r (fuel + 1) c).split
      = (if c.split
         then decide (¬ ((GadgetSMP.countBelow c.parts (GadgetSMP.hLimit c) : ℚ)
                < (c.count : ℚ) * r ∨ c.count < ss))
         else decide ((GadgetSMP.countBelow c.parts (GadgetSMP.hLimit c) : ℚ)
                > (c.count : ℚ) * r ∧ c.count > ss)) :=
  ⟨GadgetSMP.spaceSplit_split_eq ss r fuel c,
   GadgetSMP.spaceRebuildRecurse_split_eq ss r fuel c⟩

/-- C3 counterexample: a previously split cell with 2 particles, exactly 1
of them below the cutoff, `splitRatio = 1/2`, `splitSize = 1`.  The claim's
criterion `1 > 2 * (1/2) AND 2 > 1` fails, so the claim demands the subtree
be dismantled; the code's dismantle test `1 < 2 * (1/2) OR 2 < 1` also
fails, so the cell stays split. -/
theorem C3_boundary_cell_stays_split :
    let c : GadgetSMP.Cell := GadgetSMP.Cell.node (0, 0, 0) (1, 1, 1) 0 true 0
      [(⟨(1/8, 1/8, 1/8), 1/4, 0⟩, ⟨(1/8, 1/8, 1/8), 1/4, 0⟩),
       (⟨(7/8, 7/8, 7/8), 1, 0⟩, ⟨(7/8, 7/8, 7/8), 1, 0⟩)]
      (List.replicate 8 none)
    (GadgetSMP.spaceRebuildRecurse 1 (1/2) 1 c).split = true
    ∧ ¬ ((GadgetSMP.countBelow c.parts (GadgetSMP.hLimit c) : ℚ)
          > (c.count : ℚ) * (1/2) ∧ c.count > 1) := by
  intro c
  have hcnt : GadgetSMP.countBelow c.parts (GadgetSMP.hLimit c) = 1 := by
    norm_num [GadgetSMP.countBelow, GadgetSMP.hLimit, GadgetSMP.Cell.parts,
      GadgetSMP.Cell.h, c, List.filter]
  have hcount : c.count = 2 := rfl
  constructor
  · rw [show (1 : Nat) = 0 + 1 from rfl, GadgetSMP.spaceRebuildRecurse_split_eq]
    rw [show c.split = true from rfl, if_pos rfl, hcnt, hcount]
    norm_num
  · rw [hcnt, hcount]
    norm_num

namespace GadgetSMP

/-- A particle's octant is one of the eight progeny slots. -/
theorem octant_lt (loc hh : ℚ × ℚ × ℚ) (p : Part) : octant loc hh p < 8 := by
  unfold octant
  split_ifs <;> norm_num

/-- The particle slices the eight progeny receive have the parent's total
length (each particle falls in exactly one octant). -/
theorem octantConcat_length (loc hh : ℚ × ℚ × ℚ) (ps : List PPair) :
    (octantConcat loc hh ps).length = ps.length := by
  induction ps with
  | nil => rfl
  | cons p rest ih =>
    have hsplit : ∀ k, cellSplitParts loc hh (p :: rest) k
        = if octant loc hh p.1 = k
          then p :: cellSplitParts loc hh rest k
          else cellSplitParts loc hh rest k := by
      intro k
      by_cases hk : octant loc hh p.1 = k
      · simp [cellSplitParts, List.filter_cons, hk]
      · simp [cellSplitParts, List.filter_cons, hk]
    have h8 := octant_lt loc hh p.1
    unfold octantConcat at *
    rw [show List.range 8 = [0, 1, 2, 3, 4, 5, 6, 7] from rfl] at *
    simp only [List.flatMap_cons, List.flatMap_nil, List.append_nil,
      List.length_append] at *
    rw [hsplit 0, hsplit 1, hsplit 2, hsplit 3, hsplit 4, hsplit 5, hsplit 6,
      hsplit 7]
    set m := octant loc hh p.1 with hm
    interval_cases m <;> simp <;> omega

/-- A progeny slice is a sublist of the parent's particles. -/
theorem mem_of_mem_cellSplitParts (loc hh : ℚ × ℚ × ℚ) (ps : List PPair)
    (k : Nat) (q : PPair) (hq : q ∈ cellSplitParts loc hh ps k) : q ∈ ps :=
  List.mem_of_mem_filter hq

/-- `space_split` does not change a cell's particle count. -/
theorem spaceSplit_count (ss : Nat) (r : ℚ) (fuel : Nat) (c : Cell) :
    (spaceSplit ss r fuel c).count = c.count := by
  cases fuel with
  | zero => simp [spaceSplit, Cell.count, Cell.parts]
  | succ fuel =>
    simp only [spaceSplit]
    split
    · simp [Cell.count, Cell.parts, octantConcat_length]
    · simp [Cell.count, Cell.parts]

/-- `space_rebuild_recurse` does not change a cell's particle count. -/
theorem spaceRebuildRecurse_count (ss : Nat) (r : ℚ) (fuel : Nat) (c : Cell) :
    (spaceRebuildRecurse ss r fuel c).count = c.count := by
  cases fuel with
  | zero => simp [spaceRebuildRecurse, Cell.count, Cell.parts]
  | succ fuel =>
    simp only [spaceRebuildRecurse]
    split
    · split
      · simp [Cell.count, Cell.parts]
      · simp [Cell.count, Cell.parts, octantConcat_length]
    · exact spaceSplit_count ss r (fuel + 1) c

/-- The progeny invariant holds for a nulled progeny array. -/
theorem progInv_replicate_none (n : Nat) :
    progInv (List.replicate n none) = true := by
  induction n with
  | zero => rfl
  | succ n ih => simpa [List.replicate, progInv] using ih

/-- The tree invariant holds for any unsplit cell with nulled progeny. -/
theorem treeInvB_unsplit (l hh : ℚ × ℚ × ℚ) (d : Nat) (m : ℚ) (ps : List PPair) :
    treeInvB (Cell.node l hh d false m ps (List.replicate 8 none)) = true := by
  have h := progInv_replicate_none 8
  simp only [List.replicate] at h ⊢
  simp [treeInvB, h]

/-- The progeny invariant holds for progeny built by nulling the empty
cells of a list and applying `F` to the rest, when `F` preserves counts and
establishes the invariant. -/
theorem progInv_mk (l : List Cell) (F : Cell → Cell)
    (hinv : ∀ kc ∈ l, treeInvB (F kc) = true)
    (hcnt : ∀ kc ∈ l, (F kc).count = kc.count) :
    progInv (l.map fun kc => if kc.count = 0 then none else some (F kc)) = true := by
  induction l with
  | nil => rfl
  | cons kc rest ih =>
    simp only [List.map_cons]
    by_cases hz : kc.count = 0
    · rw [if_pos hz]
      exact ih (fun x hx => hinv x (List.mem_cons_of_mem _ hx))
        (fun x hx => hcnt x (List.mem_cons_of_mem _ hx))
    · rw [if_neg hz]
      simp only [progInv, Bool.and_eq_true]
      refine ⟨⟨?_, hinv kc (List.mem_cons_self _ _)⟩,
        ih (fun x hx => hinv x (List.mem_cons_of_mem _ hx))
          (fun x hx => hcnt x (List.mem_cons_of_mem _ hx))⟩
      rw [hcnt kc (List.mem_cons_self _ _)]
      simpa using Nat.pos_of_ne_zero hz

/-- If some listed cell is non-empty, the built progeny array has a
non-NULL entry. -/
theorem progAny_mk (l : List Cell) (F : Cell → Cell) (kc : Cell)
    (hmem : kc ∈ l) (hne : kc.count ≠ 0) :
    (l.map fun x => if x.count = 0 then none else some (F x)).any Option.isSome
      = true := by
  rw [List.any_eq_true]
  refine ⟨some (F kc), List.mem_map.mpr ⟨kc, hmem, by rw [if_neg hne]⟩, rfl⟩

end GadgetSMP


namespace GadgetSMP

/-- After `space_split`, the tree-shape invariant holds for the cell and
all its descendants (for a positive `splitsize`). -/
theorem spaceSplit_inv (ss : Nat) (r : ℚ) (hss : 0 < ss) :
    ∀ (fuel : Nat) (c : Cell), treeInvB (spaceSplit ss r fuel c) = true := by
  intro fuel
  induction fuel with
  | zero =>
    intro c
    simp only [spaceSplit]
    exact treeInvB_unsplit _ _ _ _ _
  | succ fuel ih =>
    intro c
    simp only [spaceSplit]
    split
    case isTrue hcond =>
      have hpos : 0 < c.count := lt_of_le_of_lt (Nat.zero_le ss) hcond.2
      have hplen : 0 < c.parts.length := hpos
      obtain ⟨p, hp⟩ := List.exists_mem_of_ne_nil c.parts
        (List.ne_nil_of_length_pos hplen)
      have hk8 : octant c.loc c.h p.1 < 8 := octant_lt _ _ _
      have hmemslice : p ∈ cellSplitParts c.loc c.h c.parts (octant c.loc c.h p.1) :=
        List.mem_filter.mpr ⟨hp, by simp⟩
      have hkidmem : spaceSplit ss r fuel
          (Cell.node (childLoc c (octant c.loc c.h p.1)) (halfH c) (c.depth + 1)
            false 0 (cellSplitParts c.loc c.h c.parts (octant c.loc c.h p.1)) [])
          ∈ (List.range 8).map fun k => spaceSplit ss r fuel
              (Cell.node (childLoc c k) (halfH c) (c.depth + 1) false 0
                (cellSplitParts c.loc c.h c.parts k) []) :=
        List.mem_map.mpr ⟨octant c.loc c.h p.1, List.mem_range.mpr hk8, rfl⟩
      have hkcount : (spaceSplit ss r fuel
          (Cell.node (childLoc c (octant c.loc c.h p.1)) (halfH c) (c.depth + 1)
            false 0 (cellSplitParts c.loc c.h c.parts (octant c.loc c.h p.1))
            [])).count ≠ 0 := by
        rw [spaceSplit_count]
        show (cellSplitParts c.loc c.h c.parts (octant c.loc c.h p.1)).length ≠ 0
        have := List.length_pos.mpr (List.ne_nil_of_mem hmemslice)
        omega
      simp only [treeInvB, if_true]
      rw [Bool.and_eq_true]
      constructor
      · exact progAny_mk _ (fun x => x) _ hkidmem hkcount
      · refine progInv_mk _ (fun x => x) ?_ (fun kc _ => rfl)
        intro kc hkc
        obtain ⟨k, _, rfl⟩ := List.mem_map.mp hkc
        exact ih _
    case isFalse =>
      exact treeInvB_unsplit _ _ _ _ _

/-- After `space_rebuild_recurse`, the tree-shape invariant holds for the
cell and all its descendants (for a positive `splitsize`). -/
theorem spaceRebuildRecurse_inv (ss : Nat) (r : ℚ) (hss : 0 < ss) :
    ∀ (fuel : Nat) (c : Cell), treeInvB (spaceRebuildRecurse ss r fuel c) = true := by
  intro fuel
  induction fuel with
  | zero =>
    intro c
    simp only [spaceRebuildRecurse]
    exact treeInvB_unsplit _ _ _ _ _
  | succ fuel ih =>
    intro c
    simp only [spaceRebuildRecurse]
    split
    case isTrue hsplit =>
      split
      case isTrue => exact treeInvB_unsplit _ _ _ _ _
      case isFalse hkeep =>
        push_neg at hkeep
        have hpos : 0 < c.count := lt_of_lt_of_le hss hkeep.2
        have hplen : 0 < c.parts.length := hpos
        obtain ⟨p, hp⟩ := List.exists_mem_of_ne_nil c.parts
          (List.ne_nil_of_length_pos hplen)
        have hk8 : octant c.loc c.h p.1 < 8 := octant_lt _ _ _
        have hmemslice : p ∈ cellSplitParts c.loc c.h c.parts (octant c.loc c.h p.1) :=
          List.mem_filter.mpr ⟨hp, by simp⟩
        have hkidcnt : ∀ k, ((match c.progeny.getD k none with
            | some old => Cell.node old.loc old.h old.depth old.split old.hmax
                (cellSplitParts c.loc c.h c.parts k) old.progeny
            | none => Cell.node (childLoc c k) (halfH c) (c.depth + 1) false 0
                (cellSplitParts c.loc c.h c.parts k) []) : Cell).count
            = (cellSplitParts c.loc c.h c.parts k).length := by
          intro k
          cases c.progeny.getD k none <;> rfl
        have hkidmem : ((match c.progeny.getD (octant c.loc c.h p.1) none with
            | some old => Cell.node old.loc old.h old.depth old.split old.hmax
                (cellSplitParts c.loc c.h c.parts (octant c.loc c.h p.1)) old.progeny
            | none => Cell.node (childLoc c (octant c.loc c.h p.1)) (halfH c)
                (c.depth + 1) false 0
                (cellSplitParts c.loc c.h c.parts (octant c.loc c.h p.1)) []) : Cell)
            ∈ (List.range 8).map fun k =>
              (match c.progeny.getD k none with
               | some old => Cell.node old.loc old.h old.depth old.split old.hmax
                   (cellSplitParts c.loc c.h c.parts k) old.progeny
               | none => Cell.node (childLoc c k) (halfH c) (c.depth + 1) false 0
                   (cellSplitParts c.loc c.h c.parts k) []) :=
          List.mem_map.mpr ⟨octant c.loc c.h p.1, List.mem_range.mpr hk8, rfl⟩
        simp only [treeInvB, if_true]
        rw [Bool.and_eq_true]
        constructor
        · refine progAny_mk _ (spaceRebuildRecurse ss r fuel) _ hkidmem ?_
          rw [hkidcnt]
          have := List.length_pos.mpr (List.ne_nil_of_mem hmemslice)
          omega
        · exact progInv_mk _ (spaceRebuildRecurse ss r fuel)
            (fun kc _ => ih kc) (fun kc _ => spaceRebuildRecurse_count ss r fuel kc)
    case isFalse =>
      exact spaceSplit_inv ss r hss (fuel + 1) c

end GadgetSMP

/-- C10: confirmed.  After `space_split` or `space_rebuild_recurse` returns
on any cell, the tree-shape invariant holds for that cell and all its
descendants: an unsplit cell has all progeny NULL, a split cell has at
least one non-NULL progeny, and every non-NULL progeny has `count > 0`
(empty children are recycled and nulled).  `splitSize` must be positive
(its default, ≈400, is). -/
theorem C10_tree_shape_invariant (ss : Nat) (r : ℚ) (fuel : Nat)
    (c : GadgetSMP.Cell) (hss : 0 < ss) :
    GadgetSMP.treeInvB (GadgetSMP.spaceSplit ss r fuel c) = true
    ∧ GadgetSMP.treeInvB (GadgetSMP.spaceRebuildRecurse ss r fuel c) = true :=
  ⟨GadgetSMP.spaceSplit_inv ss r hss fuel c,
   GadgetSMP.spaceRebuildRecurse_inv ss r hss fuel c⟩

/-- C10 witness: the invariant theorem applied to the boundary cell of the
split-criterion counterexample (2 particles, `splitSize = 1`,
`splitRatio = 1/2`, fuel 3). -/
theorem C10_tree_shape_invariant_witness :
    GadgetSMP.treeInvB (GadgetSMP.spaceSplit 1 (1/2) 3
        (GadgetSMP.Cell.node (0, 0, 0) (1, 1, 1) 0 true 0
          [(⟨(1/8, 1/8, 1/8), 1/4, 0⟩, ⟨(1/8, 1/8, 1/8), 1/4, 0⟩),
           (⟨(7/8, 7/8, 7/8), 1, 0⟩, ⟨(7/8, 7/8, 7/8), 1, 0⟩)]
          (List.replicate 8 none))) = true
    ∧ GadgetSMP.treeInvB (GadgetSMP.spaceRebuildRecurse 1 (1/2) 3
        (GadgetSMP.Cell.node (0, 0, 0) (1, 1, 1) 0 true 0
          [(⟨(1/8, 1/8, 1/8), 1/4, 0⟩, ⟨(1/8, 1/8, 1/8), 1/4, 0⟩),
           (⟨(7/8, 7/8, 7/8), 1, 0⟩, ⟨(7/8, 7/8, 7/8), 1, 0⟩)]
          (List.replicate 8 none))) = true :=
  C10_tree_shape_invariant 1 (1/2) 3
    (GadgetSMP.Cell.node (0, 0, 0) (1, 1, 1) 0 true 0
      [(⟨(1/8, 1/8, 1/8), 1/4, 0⟩, ⟨(1/8, 1/8, 1/8), 1/4, 0⟩),
       (⟨(7/8, 7/8, 7/8), 1, 0⟩, ⟨(7/8, 7/8, 7/8), 1, 0⟩)]
      (List.replicate 8 none)) (by decide)

/-- C8 amended: a call with `N = 0` is neither rejected with a diagnostic
nor turned into an empty graph: `space_rebuild` (as invoked from
`space_init`) unconditionally reads `s->parts[0].h` to seed `h_max`, which
with `nr_parts = 0` is an out-of-bounds access to the particle array — the
model's explicit `oobRead` outcome. -/
theorem C8_zero_parts_reads_out_of_bounds (stretch cellMax : ℚ)
    (dim : ℚ × ℚ × ℚ) (ss : Nat) (r : ℚ) (fuel : Nat) :
    GadgetSMP.spaceRebuild stretch cellMax dim ss r fuel []
      = .error .oobRead := rfl

/-- C8 counterexample: at the concrete call
`space_rebuild(dim = [1,1,1], stretch = 1, cell_max = 1, ...)` with zero
particles, the function reads `parts[0]` (the `oobRead` outcome) instead of
rejecting the input or producing an empty graph. -/
theorem C8_zero_parts_counterexample :
    GadgetSMP.spaceRebuild 1 1 (1, 1, 1) 400 (1/2) 5 []
      = .error .oobRead := rfl

namespace GadgetSMP

/-- Splitting a particle into the flattened progeny traces back to one of
the listed child cells. -/
theorem mem_flattenProg_mk (l : List Cell) (F : Cell → Cell) (q : PPair)
    (h : q ∈ flattenProg (l.map fun kc => if kc.count = 0 then none else some (F kc))) :
    ∃ kc ∈ l, q ∈ flattenParts (F kc) := by
  induction l with
  | nil => simp [flattenProg] at h
  | cons kc rest ih =>
    simp only [List.map_cons] at h
    by_cases hz : kc.count = 0
    · rw [if_pos hz] at h
      simp only [flattenProg] at h
      obtain ⟨kc', hkc', hq⟩ := ih h
      exact ⟨kc', List.mem_cons_of_mem _ hkc', hq⟩
    · rw [if_neg hz] at h
      simp only [flattenProg] at h
      rcases List.mem_append.mp h with h1 | h2
      · exact ⟨kc, List.mem_cons_self _ _, h1⟩
      · obtain ⟨kc', hkc', hq⟩ := ih h2
        exact ⟨kc', List.mem_cons_of_mem _ hkc', hq⟩

/-- Every particle in the subtree `space_split` builds came from the input
cell's slice. -/
theorem mem_parts_of_flatten_spaceSplit (ss : Nat) (r : ℚ) :
    ∀ (fuel : Nat) (c : Cell) (q : PPair),
      q ∈ flattenParts (spaceSplit ss r fuel c) → q ∈ c.parts := by
  intro fuel
  induction fuel with
  | zero =>
    intro c q hq
    simpa [spaceSplit, flattenParts, Cell.parts] using hq
  | succ fuel ih =>
    intro c q hq
    simp only [spaceSplit] at hq
    split at hq
    case isTrue =>
      simp only [flattenParts, if_true] at hq
      obtain ⟨kc, hkc, hq'⟩ := mem_flattenProg_mk _ (fun x => x) q hq
      obtain ⟨k, _, rfl⟩ := List.mem_map.mp hkc
      have := ih _ q hq'
      exact List.mem_of_mem_filter this
    case isFalse =>
      simpa [flattenParts, Cell.parts] using hq

/-- Every particle in the subtree `space_rebuild_recurse` builds came from
the input cell's slice. -/
theorem mem_parts_of_flatten_rebuildRecurse (ss : Nat) (r : ℚ) :
    ∀ (fuel : Nat) (c : Cell) (q : PPair),
      q ∈ flattenParts (spaceRebuildRecurse ss r fuel c) → q ∈ c.parts := by
  intro fuel
  induction fuel with
  | zero =>
    intro c q hq
    simpa [spaceRebuildRecurse, flattenParts, Cell.parts] using hq
  | succ fuel ih =>
    intro c q hq
    simp only [spaceRebuildRecurse] at hq
    split at hq
    case isTrue =>
      split at hq
      case isTrue =>
        simpa [flattenParts, Cell.parts] using hq
      case isFalse =>
        simp only [flattenParts, if_true] at hq
        obtain ⟨kc, hkc, hq'⟩ := mem_flattenProg_mk _ (spaceRebuildRecurse ss r fuel) q hq
        obtain ⟨k, _, rfl⟩ := List.mem_map.mp hkc
        have hq'' := ih _ q hq'
        have : (cellSplitParts c.loc c.h c.parts k) =
            ((match c.progeny.getD k none with
              | some old => Cell.node old.loc old.h old.depth old.split old.hmax
                  (cellSplitParts c.loc c.h c.parts k) old.progeny
              | none => Cell.node (childLoc c k) (halfH c) (c.depth + 1) false 0
                  (cellSplitParts c.loc c.h c.parts k) []) : Cell).parts := by
          cases c.progeny.getD k none <;> rfl
        rw [← this] at hq''
        exact List.mem_of_mem_filter hq''
    case isFalse =>
      exact mem_parts_of_flatten_spaceSplit ss r (fuel + 1) c q hq

/-- In the zip of a list with its condensed copy, every pair's second
component is the condensation of its first. -/
theorem snd_eq_condense_of_mem_zip (l : List Part) (q : PPair)
    (hq : q ∈ l.zip (l.map condense)) : q.2 = condense q.1 := by
  induction l with
  | nil => simp at hq
  | cons a l ih =>
    simp only [List.map_cons, List.zip_cons_cons] at hq
    rcases List.mem_cons.mp hq with rfl | h
    · rfl
    · exact ih h

/-- Slicing by counts produces sublists of the input. -/
theorem mem_of_mem_splitByCounts (counts : List Nat) :
    ∀ (ps : List PPair) (s : List PPair), s ∈ splitByCounts ps counts →
      ∀ q ∈ s, q ∈ ps := by
  induction counts with
  | nil =>
    intro ps s hs
    simp [splitByCounts] at hs
  | cons n rest ih =>
    intro ps s hs q hq
    simp only [splitByCounts] at hs
    rcases List.mem_cons.mp hs with rfl | h
    · exact List.mem_of_mem_take hq
    · exact List.mem_of_mem_drop (ih _ _ h q hq)

/-- Reading a slice with `getD` still gives a sublist of the input. -/
theorem mem_of_mem_splitByCounts_getD (ps : List PPair) (counts : List Nat)
    (cid : Nat) (q : PPair) (hq : q ∈ (splitByCounts ps counts).getD cid []) :
    q ∈ ps := by
  rw [List.getD_eq_getElem?_getD] at hq
  cases h : (splitByCounts ps counts)[cid]? with
  | none => rw [h] at hq; simp at hq
  | some s =>
    rw [h] at hq
    exact mem_of_mem_splitByCounts counts ps s (List.getElem?_mem h) q hq

end GadgetSMP

namespace GadgetSMP

/-- Casing helper: a successful monadic bind over `Except` splits into a
successful first stage and a successful continuation. -/
theorem exceptBind_ok {ε α β : Type} (e : Except ε α) (f : α → Except ε β)
    (b : β) (h : (e >>= f) = .ok b) : ∃ a, e = .ok a ∧ f a = .ok b := by
  cases e with
  | error err => exact absurd h (by simp [Bind.bind, Except.bind])
  | ok a => exact ⟨a, rfl, by simpa [Bind.bind, Except.bind] using h⟩

/-- Casing helper: `pure` on `Except` is `.ok`. -/
theorem exceptPure_ok {ε α : Type} (a b : α)
    (h : (pure a : Except ε α) = .ok b) : a = b := by
  simpa [pure, Except.pure] using h

/-- Structure of a successful `rebuildSorted`: the returned `parts` and
`cparts` arrays are the two projections of one pair list in which every
second component is the condensation of the first. -/
theorem rebuildSorted_ok_pairs (ss : Nat) (r : ℚ) (fuel : Nat)
    (cd : Int × Int × Int) (hh : ℚ × ℚ × ℚ) (ncells : Int) (ind : List Int)
    (parts : List Part) (pr : List Part × List CPart)
    (hres : rebuildSorted ss r fuel cd hh ncells ind parts = .ok pr) :
    ∃ L : List PPair, pr = (L.map Prod.fst, L.map Prod.snd) ∧
      ∀ q ∈ L, q.2 = condense q.1 := by
  rw [rebuildSorted] at hres
  split at hres
  case isTrue => exact (Except.noConfusion hres)
  case isFalse =>
    obtain ⟨sorted, hsort, heq⟩ := exceptBind_ok _ _ _ hres
    have hpr := exceptPure_ok _ _ heq
    refine ⟨_, hpr.symm, ?_⟩
    intro q hq
    rw [List.mem_flatMap] at hq
    obtain ⟨c2, hc2, hqc⟩ := hq
    rw [List.mem_map] at hc2
    obtain ⟨c, hc, rfl⟩ := hc2
    have hq1 := mem_parts_of_flatten_rebuildRecurse ss r fuel c q hqc
    rw [List.mem_map] at hc
    obtain ⟨cid, _, rfl⟩ := hc
    simp only [Cell.parts] at hq1
    have hq2 := mem_of_mem_splitByCounts_getD _ _ _ _ hq1
    exact snd_eq_condense_of_mem_zip _ q hq2

/-- Structure of a successful rebuild: the returned `parts` and `cparts`
arrays are the two projections of one pair list in which every second
component is the condensation of the first. -/
theorem spaceRebuild_ok_pairs (stretch cellMax : ℚ) (dim : ℚ × ℚ × ℚ)
    (ss : Nat) (r : ℚ) (fuel : Nat) (parts : List Part)
    (pr : List Part × List CPart)
    (hres : spaceRebuild stretch cellMax dim ss r fuel parts = .ok pr) :
    ∃ L : List PPair, pr = (L.map Prod.fst, L.map Prod.snd) ∧
      ∀ q ∈ L, q.2 = condense q.1 := by
  cases hh : parts.head? with
  | none =>
    rw [spaceRebuild, hh] at hres
    exact (Except.noConfusion hres)
  | some p0 =>
    rw [spaceRebuild, hh] at hres
    exact rebuildSorted_ok_pairs _ _ _ _ _ _ _ _ _ hres

end GadgetSMP

/-- C9: after a successful `space_rebuild`, every condensed particle mirrors
the post-sort particle at the same index: `cparts[i]` holds exactly the
position, smoothing length and time step of `parts[i]` (`cell_split` and
`cell_getid` live in cell.c, absent from the sources, and are modelled from
the spec). -/
theorem C9_cparts_mirror (stretch cellMax : ℚ) (dim : ℚ × ℚ × ℚ) (ss : Nat)
    (r : ℚ) (fuel : Nat) (parts : List GadgetSMP.Part) :
    match GadgetSMP.spaceRebuild stretch cellMax dim ss r fuel parts with
    | .error _ => True
    | .ok pr => ∀ i : Nat, pr.2[i]? = (pr.1[i]?).map GadgetSMP.condense := by
  cases hres : GadgetSMP.spaceRebuild stretch cellMax dim ss r fuel parts with
  | error e => trivial
  | ok pr =>
    obtain ⟨L, rfl, hL⟩ :=
      GadgetSMP.spaceRebuild_ok_pairs stretch cellMax dim ss r fuel parts pr hres
    intro i
    simp only [List.getElem?_map]
    cases hLi : L[i]? with
    | none => rfl
    | some q =>
      exact congrArg some (hL q (List.getElem?_mem hLi))
